import Mathlib

/-!
# gojq builtin runtime (`func.go`): index, slice, keys, setpath, delpaths, getpath

A shallow embedding of the functions of `func.go` that implement structural access and
path-based mutation, followed by theorems about them.

Modelling conventions.

* A Go `interface{}` holding data is a `Value`.  Go `int` is `Int`, a `float64` is kept as
  its IEEE 754 bit pattern, a `string` is a `String` (valid UTF-8, as produced by the JSON
  decoder), `[]interface{}` is `List Value`, `map[string]interface{}` is an association list
  read by first match, and the empty struct `struct{}{}` that `delpaths` uses as its marker is
  `Value.hole`.  Error values are not data: they occur only as results.
* What a builtin hands back is a `Result`: a plain value, one of the error values of the error
  taxonomy, or a panic.  Every partial Go operation (`a[i]`, `a[:i]`, `a[i:]`, `make`,
  `panic(..)`) is modelled with its run-time check, so that "does not panic" is a statement
  about the code.
* A Go `int` has 64 bits.  The one sum of the code that can leave that range, the length
  `y + 1` of an array that `setpath` grows, wraps around as in Go (`wrapInt`).  The call `make`
  panics for a negative length and for a length above the largest one it accepts; that limit
  depends on the platform and is no constant of `func.go`, so it is the parameter `maxLen`.
* The in-place writes of `updatePaths` into the freshly cloned root are modelled by rebuilding
  each container on the way back from the walk: the value returned for a subtree is what its
  slot holds when the loop is left.  Writing back an unchanged child is the identity on the
  container, and the walk enters an absent key only in a mode that then commits a container
  or fails, so the rebuilt root is the root the Go code returns.
* `clone`, `deleteEmpty` and `compare` are not part of `func.go`: the first two are modelled
  from the specification, the comparator is a parameter.  The library call `sort.Strings`
  is a sort into increasing order.
* Aliasing is outside the model on values.  Where a statement is about the caller's array
  staying as it was, the numeric arm of `updatePaths` is given once more over a heap of
  backing arrays and related to the model on values.
-/

namespace Gojq

/-! ## Values, errors and results -/

/-- A dynamically typed value as held in a Go `interface{}`. -/
inductive Value where
  | null
  | bool (b : Bool)
  | int (n : Int)
  | float (bits : Nat)
  | str (s : String)
  | arr (xs : List Value)
  | obj (kvs : List (String × Value))
  | hole

/-- The test `u == nil`. -/
def Value.isNull : Value → Bool
  | .null => true
  | _ => false

/-- The error values of the runtime (the `error` implementations `func.go` constructs). -/
inductive Err where
  | funcTypeError (name : String) (v : Value)
  | expectedObjectError (v : Value)
  | expectedArrayError (v : Value)
  | objectKeyNotStringError (v : Value)
  | arrayIndexNotNumberError (v : Value)
  | hasKeyTypeError (v x : Value)
  | getpathError (v p : Value)

/-- Outcome of a call: a value, an error value returned through the result channel, or a
panic that unwinds the Go stack. -/
inductive Result where
  | val (v : Value)
  | err (e : Err)
  | panic (info : String)

/-- Holds when the result is an error value (`_, ok := v.(error)`). -/
def Result.isErr : Result → Bool
  | .err _ => true
  | _ => false

/-- Holds when the call panicked. -/
def Result.isPanic : Result → Bool
  | .panic _ => true
  | _ => false

/-! ## Numbers -/

/-- Conversion `int(x)` of a `float64` given by its bit pattern: truncation toward zero;
NaN, infinities and magnitudes outside the 64-bit range give the smallest `int64`
(the amd64 result). -/
def f64ToInt (bits : Nat) : Int :=
  let sign := bits / 2 ^ 63 % 2
  let e := bits / 2 ^ 52 % 2 ^ 11
  let m := bits % 2 ^ 52
  if e = 2047 then -(2 : Int) ^ 63
  else if e = 0 then 0
  else
    let mag : Nat := if 1075 ≤ e then (2 ^ 52 + m) * 2 ^ (e - 1075) else (2 ^ 52 + m) / 2 ^ (1075 - e)
    let r : Int := if sign = 1 then -(mag : Int) else (mag : Int)
    if -(2 : Int) ^ 63 ≤ r ∧ r < (2 : Int) ^ 63 then r else -(2 : Int) ^ 63

/-- Conversion `rune(x)` of a `float64`: truncation toward zero, with the smallest `int32`
outside the 32-bit range. -/
def f64ToRune (bits : Nat) : Int :=
  let r := f64ToInt bits
  if -(2 : Int) ^ 31 ≤ r ∧ r < (2 : Int) ^ 31 then r else -(2 : Int) ^ 31

/-- The function `toInt`: integers pass, floats truncate, everything else fails. -/
def toInt : Value → Option Int
  | .int n => some n
  | .float b => some (f64ToInt b)
  | _ => none

/-! ## Strings as code point arrays -/

/-- The function `explode`: the code points of a string, as integers. -/
def explode (s : String) : List Value :=
  s.data.map (fun c => Value.int (c.toNat : Int))

/-- Conversion `rune(r)` of an `int`: two's complement truncation to 32 bits. -/
def intToRune (n : Int) : Int :=
  (n + 2 ^ 31) % 2 ^ 32 - 2 ^ 31

/-- One rune of `string(rs)`: a Unicode scalar value encodes as itself, anything else as
U+FFFD. -/
def runeToChar (r : Int) : Char :=
  if 0 ≤ r ∧ (r.toNat < 0xd800 ∨ (0xdfff < r.toNat ∧ r.toNat < 0x110000)) then Char.ofNat r.toNat
  else Char.ofNat 0xfffd

/-- The loop of `implode`: the runes of the elements, or `none` at the first element that is
not a number. -/
def implodeRunes : List Value → Option (List Char)
  | [] => some []
  | .int n :: rest => (implodeRunes rest).map (fun cs => runeToChar (intToRune n) :: cs)
  | .float b :: rest => (implodeRunes rest).map (fun cs => runeToChar (f64ToRune b) :: cs)
  | _ :: _ => none

/-- The function `implode`. -/
def implode (v : List Value) : Result :=
  match implodeRunes v with
  | some cs => .val (.str (String.mk cs))
  | none => .err (.funcTypeError "implode" (.arr v))

/-! ## Index and slice -/

/-- The closure `toIndex` of `funcIndexSlice`, for an array of length `l`: `-2` is
"before start", `-1` is "past end". -/
def toIndex (l : Int) (i : Int) : Int :=
  if i < -l then -2
  else if i < 0 then l + i
  else if i < l then i
  else -1

/-- Element access `a[i]` with its bounds check. -/
def goIndex (a : List Value) (i : Int) : Option Value :=
  if 0 ≤ i then a[i.toNat]? else none

/-- Re-slice `a[:i]` with its bounds check. -/
def goSliceTo (a : List Value) (i : Int) : Option (List Value) :=
  if 0 ≤ i ∧ i ≤ (a.length : Int) then some (a.take i.toNat) else none

/-- Re-slice `a[i:]` with its bounds check. -/
def goSliceFrom (a : List Value) (i : Int) : Option (List Value) :=
  if 0 ≤ i ∧ i ≤ (a.length : Int) then some (a.drop i.toNat) else none

/-- The function `funcIndexSlice`; the three pointers are options. -/
def funcIndexSlice (start stop index : Option Int) (a : List Value) : Result :=
  let l : Int := a.length
  match index with
  | some idx =>
    let i := toIndex l idx
    if i < 0 then .val .null
    else
      match goIndex a i with
      | some x => .val x
      | none => .panic "index out of range"
  | none =>
    let cut : Option (List Value) :=
      match stop with
      | some e =>
        let i := toIndex l e
        let i := if i = -1 then (a.length : Int) else if i = -2 then 0 else i
        goSliceTo a i
      | none => some a
    match cut with
    | none => .panic "slice bounds out of range"
    | some a1 =>
      match start with
      | some s =>
        let i := toIndex l s
        let i := if i = -1 ∨ (a1.length : Int) < i then (a1.length : Int) else if i = -2 then 0 else i
        match goSliceFrom a1 i with
        | some a2 => .val (.arr a2)
        | none => .panic "slice bounds out of range"
      | none => .val (.arr a1)

/-- The type switch of `funcSlice` on the container. -/
def funcSliceCore (v stop start : Value) : Result :=
  match v with
  | .null => .val .null
  | .arr a =>
    match start with
    | .null =>
      match stop with
      | .null => .val (.arr a)
      | _ =>
        match toInt stop with
        | some e => funcIndexSlice none (some e) none a
        | none => .err (.arrayIndexNotNumberError stop)
    | _ =>
      match toInt start with
      | some s =>
        match stop with
        | .null => funcIndexSlice (some s) none none a
        | _ =>
          match toInt stop with
          | some e => funcIndexSlice (some s) (some e) none a
          | none => .err (.arrayIndexNotNumberError stop)
      | none => .err (.arrayIndexNotNumberError start)
  | _ => .err (.expectedArrayError v)

/-- The function `funcSlice(_, v, end, start)`: a string is exploded first and the deferred
function turns the result back into a string, panicking on any result that is not an
array, an `int` or `nil`. -/
def funcSlice (v stop start : Value) : Result :=
  match v with
  | .str w =>
    match funcSliceCore (.arr (explode w)) stop start with
    | .val (.arr s) => implode s
    | .val (.int s) => implode [.int s]
    | .val .null => .val (.str "")
    | .panic info => .panic info
    | _ => .panic "panic(r)"
  | _ => funcSliceCore v stop start

/-! ## Objects -/

/-- Map read `w, ok := m[k]`. -/
def mapGet : List (String × Value) → String → Option Value
  | [], _ => none
  | (k', w) :: rest, k => if k' = k then some w else mapGet rest k

/-- Map write `m[k] = w`: an existing entry is overwritten, a new one is added. -/
def mapSet : List (String × Value) → String → Value → List (String × Value)
  | [], k, w => [(k, w)]
  | (k', w') :: rest, k, w => if k' = k then (k', w) :: rest else (k', w') :: mapSet rest k w

/-- Map read `m[k]`, which is `nil` for an absent key. -/
def mapIndex (m : List (String × Value)) (k : String) : Value :=
  (mapGet m k).getD .null

/-! ## funcIndex -/

/-- The inner loop of the subsequence search at offset `i`, from position `j` of the
selector: the value of `neq` when the loop is left, or `none` if `v[i+j]` is out of range. -/
def indexNeq (compare : Value → Value → Int) (v : List Value) (i : Nat) :
    Nat → List Value → Option Bool
  | _, [] => some false
  | j, y :: ys =>
    match goIndex v ((i + j : Nat) : Int) with
    | none => none
    | some w => if compare w y ≠ 0 then some true else indexNeq compare v i (j + 1) ys

/-- The outer loop `for i := 0; i < len(v) && i < len(v)-len(x)+1; i++` of the subsequence
search; the first argument bounds the iterations still to run (`len(v) - i`), and the loop
condition is the one of the source. -/
def indexLoop (compare : Value → Value → Int) (v x : List Value) :
    Nat → Nat → List Value → Result
  | 0, _, xs => .val (.arr xs)
  | n + 1, i, xs =>
    if (i : Int) < (v.length : Int) ∧ (i : Int) < (v.length : Int) - (x.length : Int) + 1 then
      match indexNeq compare v i 0 x with
      | none => .panic "index out of range"
      | some neq => indexLoop compare v x n (i + 1) (if neq then xs else xs ++ [.int (i : Int)])
    else .val (.arr xs)

/-- The numeric case of `funcIndex`, after `idx, _ := toInt(x)`. -/
def funcIndexNumber (idx : Int) (v : Value) : Result :=
  match v with
  | .null => .val .null
  | .arr a => funcIndexSlice none none (some idx) a
  | .str s =>
    match funcIndexSlice none none (some idx) (explode s) with
    | .val (.arr w) => implode w
    | .val (.int w) => implode [.int w]
    | .val .null => .val (.str "")
    | .panic info => .panic info
    | _ => .panic "panic(v)"
  | _ => .err (.expectedArrayError v)

/-- The function `funcIndex(_, v, x)`; `compare` is the total-order comparator of the
runtime. -/
def funcIndex (compare : Value → Value → Int) (v x : Value) : Result :=
  match x with
  | .str k =>
    match v with
    | .null => .val .null
    | .obj m => .val (mapIndex m k)
    | _ => .err (.expectedObjectError v)
  | .int n => funcIndexNumber n v
  | .float b => funcIndexNumber (f64ToInt b) v
  | .arr xs =>
    match v with
    | .null => .val .null
    | .arr vs =>
      if xs.length = 0 then .val (.arr [])
      else indexLoop compare vs xs vs.length 0 []
    | _ => .err (.expectedArrayError v)
  | _ => .err (.objectKeyNotStringError x)

/-! ## The path walk -/

/-- Modelled from the spec: `clone`, the deep copy (not in `func.go`).  Values of the model
are immutable, so the copy is the value itself. -/
def clone (v : Value) : Value := v

/-- The sum `y + 1` as a Go `int`: two's complement wrap to 64 bits. -/
def wrapInt (n : Int) : Int :=
  (n + 2 ^ 63) % 2 ^ 64 - 2 ^ 63

/-- The statements `ys := make([]interface{}, l); copy(ys, uu)`, once `make` has accepted
the length. -/
def makeCopy (l : Nat) (uu : List Value) : List Value :=
  uu.take l ++ List.replicate (l - uu.length) Value.null

/-- The `map[string]interface{}` case of the loop body of `updatePaths`, at key `k` of the
object `uu`: `last` is `i == len(keys)-1`, and `next` runs the rest of the loop from the
child. -/
def objectStep (name : String) (f : Value → Value) (uu : List (String × Value)) (k : String)
    (last : Bool) (next : Value → Result) : Result :=
  if (mapGet uu k).isNone ∧ name = "delpaths" then .val (.obj uu)
  else if last then .val (.obj (mapSet uu k (f (mapIndex uu k))))
  else
    match next (mapIndex uu k) with
    | .val w => .val (.obj (mapSet uu k w))
    | r => r

/-- The tail of the `[]interface{}` case of the loop body of `updatePaths`: copy `uu` into
a slice of length `l`, commit it, then read or write position `y`.  The call
`make([]interface{}, l)` panics for a negative length and for a length above `maxLen`, the
largest length that `make` accepts on the platform.  The slice `uu` exists, so its length
is within that limit: a length `l` up to `len(uu)` is accepted, and the test below is
`l < 0 || l > maxLen` for every slice `uu` that `make` can have returned
(`make_check_iff`). -/
def arrayStep (maxLen : Nat) (f : Value → Value) (uu : List Value) (l y : Int)
    (last : Bool) (next : Value → Result) : Result :=
  if l < 0 ∨ ((uu.length : Int) < l ∧ (maxLen : Int) < l) then
    .panic "makeslice: len out of range"
  else
    let ys := makeCopy l.toNat uu
    if (ys.length : Int) ≤ y then .val (.arr ys)
    else
      match goIndex ys y with
      | none => .panic "index out of range"
      | some c =>
        if last then .val (.arr (ys.set y.toNat (f c)))
        else
          match next c with
          | .val w => .val (.arr (ys.set y.toNat w))
          | r => r

/-- The `case string:` arm of the loop body of `updatePaths`, at the current subtree `u`. -/
def objectCase (name : String) (f : Value → Value) (u : Value) (k : String)
    (last : Bool) (next : Value → Result) : Result :=
  if u.isNull ∧ name = "delpaths" then .val u
  else
    let u1 : Value := match u with
      | .null => .obj []
      | _ => u
    match u1 with
    | .obj uu => objectStep name f uu k last next
    | _ => .err (.expectedObjectError u1)

/-- The `case int, float64:` arm of the loop body of `updatePaths`, at the current subtree
`u`, after `y, _ := toInt(x)`; the length `l = y + 1` of a grown array is a Go `int`. -/
def arrayCase (maxLen : Nat) (name : String) (f : Value → Value) (u : Value) (y : Int)
    (last : Bool) (next : Value → Result) : Result :=
  let u1 : Value := match u with
    | .null => .arr []
    | _ => u
  match u1 with
  | .arr uu =>
    let len : Int := uu.length
    if len ≤ y ∧ name = "setpath" then arrayStep maxLen f uu (wrapInt (y + 1)) y last next
    else if y < -len then
      if name = "delpaths" then .val (.arr uu) else .err (.funcTypeError name (.int y))
    else if y < 0 then arrayStep maxLen f uu len (len + y) last next
    else arrayStep maxLen f uu len y last next
  | _ => .err (.expectedArrayError u1)

/-- The loop of `updatePaths` over the remaining keys, started at the subtree `u`.  The
result is what the slot that held `u` holds when the loop is left (by `break loop`, or
after the last key); an error leaves `updatePaths` at once. -/
def updateLoop (maxLen : Nat) (name : String) (f : Value → Value) :
    Value → List Value → Result
  | u, [] => .val u
  | u, x :: rest =>
    match x with
    | .str k => objectCase name f u k rest.isEmpty (fun c => updateLoop maxLen name f c rest)
    | .int n =>
      arrayCase maxLen name f u n rest.isEmpty (fun c => updateLoop maxLen name f c rest)
    | .float b =>
      arrayCase maxLen name f u (f64ToInt b) rest.isEmpty
        (fun c => updateLoop maxLen name f c rest)
    | _ =>
      match u with
      | .arr _ => .err (.arrayIndexNotNumberError x)
      | _ => .err (.objectKeyNotStringError x)

/-- The function `updatePaths(name, v, p, f)`; `maxLen` is the largest length that `make`
accepts. -/
def updatePaths (maxLen : Nat) (name : String) (v p : Value) (f : Value → Value) : Result :=
  match p with
  | .arr keys => if keys.isEmpty then .val (f v) else updateLoop maxLen name f v keys
  | _ => .err (.funcTypeError name p)

/-- The function `funcSetpath(v, p, w)`. -/
def funcSetpath (maxLen : Nat) (v p w : Value) : Result :=
  updatePaths maxLen "setpath" (clone v) p (fun _ => w)

mutual
/-- Modelled from the spec: `deleteEmpty`, the compaction pass after a batch of deletions
(not in `func.go`): hole entries of arrays and objects are removed at every depth, so that
arrays are left dense; a root that is itself the hole becomes `null`. -/
def deleteEmpty : Value → Value
  | .hole => .null
  | .arr xs => .arr (deleteEmptyList xs)
  | .obj kvs => .obj (deleteEmptyFields kvs)
  | v => v
/-- Compaction of the elements of an array. -/
def deleteEmptyList : List Value → List Value
  | [] => []
  | .hole :: xs => deleteEmptyList xs
  | x :: xs => deleteEmpty x :: deleteEmptyList xs
/-- Compaction of the entries of an object. -/
def deleteEmptyFields : List (String × Value) → List (String × Value)
  | [] => []
  | (_, .hole) :: kvs => deleteEmptyFields kvs
  | (k, x) :: kvs => (k, deleteEmpty x) :: deleteEmptyFields kvs
end

/-- The loop of `funcDelpaths` over the paths, then the compaction. -/
def delpathsLoop (maxLen : Nat) : Value → List Value → Result
  | v, [] => .val (deleteEmpty v)
  | v, path :: rest =>
    match updatePaths maxLen "delpaths" (clone v) path (fun _ => Value.hole) with
    | .val v1 => delpathsLoop maxLen v1 rest
    | r => r

/-- The function `funcDelpaths(v, p)`. -/
def funcDelpaths (maxLen : Nat) (v p : Value) : Result :=
  match p with
  | .arr paths => delpathsLoop maxLen v paths
  | _ => .err (.funcTypeError "delpaths" p)

/-- The loop of `funcGetpath`: `root` and `p` are the arguments of the call, kept for the
error value. -/
def getpathLoop (compare : Value → Value → Int) (root p : Value) : Value → List Value → Result
  | v, [] => .val v
  | v, x :: rest =>
    match v with
    | .obj _ | .arr _ | .null =>
      match funcIndex compare v x with
      | .val v1 => getpathLoop compare root p v1 rest
      | .err _ => .err (.getpathError root p)
      | .panic info => .panic info
    | _ => .err (.getpathError root p)

/-- The function `funcGetpath(v, p)`. -/
def funcGetpath (compare : Value → Value → Int) (v p : Value) : Result :=
  match p with
  | .arr keys => getpathLoop compare v p v keys
  | _ => .err (.funcTypeError "getpath" p)

/-! ## Vocabulary of the specification -/

/-- A bound of `funcSlice` that is an integer or absent (`nil`). -/
def boundValue : Option Int → Value
  | none => .null
  | some i => .int i

/-- Resolution of a slice bound against length `l`, in the words of the specification:
past the end becomes `l`, before the start becomes `0`, a negative bound in range counts
from the end. -/
def clampBound (l i : Int) : Int :=
  if l ≤ i then l else if i < -l then 0 else if i < 0 then l + i else i

/-- The contiguous sub-array of the elements at positions `s ≤ k < e`. -/
def subArray (a : List Value) (s e : Int) : List Value :=
  (a.drop s.toNat).take (e.toNat - s.toNat)

/-- A bound of `funcSlice` that is present and not a number. -/
def badBound (b : Value) : Prop :=
  b.isNull = false ∧ toInt b = none

/-- The selector `x` occurs in `v` at offset `i`: it fits, and every `v[i+j]` compares equal
to `x[j]`. -/
def occursAt (compare : Value → Value → Int) (v x : List Value) (i : Nat) : Prop :=
  i + x.length ≤ v.length ∧
    ∀ j w y, v[i + j]? = some w → x[j]? = some y → compare w y = 0

/-- A path component: a string or a number. -/
def pathKey : Value → Bool
  | .str _ => true
  | .int _ => true
  | .float _ => true
  | _ => false

/-- The chain of single-key objects `{k1: {k2: ... {kn: x}}}`. -/
def keyChain : List String → Value → Value
  | [], x => x
  | k :: ks, x => .obj [(k, keyChain ks x)]

mutual
/-- The value contains the hole marker somewhere. -/
def hasHole : Value → Bool
  | .hole => true
  | .arr xs => hasHoleList xs
  | .obj kvs => hasHoleFields kvs
  | _ => false

/-- Some element contains the hole marker. -/
def hasHoleList : List Value → Bool
  | [] => false
  | x :: xs => hasHole x || hasHoleList xs

/-- Some entry contains the hole marker. -/
def hasHoleFields : List (String × Value) → Bool
  | [] => false
  | (_, x) :: kvs => hasHole x || hasHoleFields kvs
end

/-- The subtree that a path reaches lacks the next component `c`: it is an object without
the key `c`, or an array for which the index `c` is out of range. -/
def absentAt (target c : Value) : Prop :=
  (∃ o k, target = .obj o ∧ c = .str k ∧ mapGet o k = none) ∨
  (∃ a i, target = .arr a ∧ c = .int i ∧ ((a.length : Int) ≤ i ∨ i < -(a.length : Int)))

/-! ## funcKeys -/

/-- The keys that `for k := range v` yields for a map: every key once.  Go leaves the order
open; the sort that follows makes the result independent of it. -/
def mapKeys (m : List (String × Value)) : List String :=
  (m.map Prod.fst).dedup

/-- The library call `sort.Strings(w)`: the strings in increasing order.  Byte-wise order
of valid UTF-8 is the order of the code point sequences. -/
def sortStrings (w : List String) : List String :=
  w.insertionSort (· ≤ ·)

/-- The function `funcKeys(v)`. -/
def funcKeys (v : Value) : Result :=
  match v with
  | .arr a => .val (.arr ((List.range a.length).map (fun (i : Nat) => Value.int (i : Int))))
  | .obj m => .val (.arr ((sortStrings (mapKeys m)).map Value.str))
  | _ => .err (.funcTypeError "keys" v)

/-! ## More vocabulary of the specification -/

/-- A non-null scalar: a boolean, a number or a string. -/
def isScalar : Value → Bool
  | .bool _ => true
  | .int _ => true
  | .float _ => true
  | .str _ => true
  | _ => false

/-- A number: the Go types `int` and `float64`. -/
def isNumber : Value → Bool
  | .int _ => true
  | .float _ => true
  | _ => false

/-! ## Batches of deletions -/

/-- The position that an index `i` with `-l ≤ i < l` resolves to in an array of length
`l`. -/
def resolveIndex (l : Nat) (i : Int) : Nat :=
  if i < 0 then ((l : Int) + i).toNat else i.toNat

/-- The array without the elements at the positions in `S`, the rest in their order; `j`
is the position of the first element. -/
def removeAt (S : List Nat) : Nat → List Value → List Value
  | _, [] => []
  | j, x :: xs => if j ∈ S then removeAt S (j + 1) xs else x :: removeAt S (j + 1) xs

/-- The array with the hole marker at the positions in `S`; `j` is the position of the
first element. -/
def markAt (S : List Nat) : Nat → List Value → List Value
  | _, [] => []
  | j, x :: xs => (if j ∈ S then Value.hole else x) :: markAt S (j + 1) xs

/-- The path `[i]`. -/
def indexPath (i : Int) : Value :=
  .arr [.int i]

/-- Two calls end the same way: both in the same error value, or both in a value, or both
in the same panic. -/
def sameOutcome (r1 r2 : Result) : Prop :=
  (∃ e, r1 = .err e ∧ r2 = .err e) ∨ (∃ a b, r1 = .val a ∧ r2 = .val b) ∨
    (∃ info, r1 = .panic info ∧ r2 = .panic info)

/-! ## The numeric arm of `updatePaths` on a heap

The functions above work on immutable values.  To state that a write leaves the caller's
array alone, the numeric arm for a one-component path is given a second time with the
backing arrays of slices kept in a heap, statement by statement. -/

/-- The backing arrays of the slices in use, by address. -/
def Heap : Type := List (List Value)

/-- The elements of the slice at an address. -/
def heapRead (h : Heap) (addr : Nat) : List Value :=
  (List.get? h addr).getD []

/-- A fresh backing array with the given elements (`make` followed by `copy`): the new heap
and the address. -/
def heapAlloc (h : Heap) (xs : List Value) : Heap × Nat :=
  (List.append h [xs], List.length h)

/-- The assignment `uu[i] = w` for the slice at `addr`. -/
def heapWrite (h : Heap) (addr i : Nat) (w : Value) : Heap :=
  List.set h addr ((heapRead h addr).set i w)

/-- The statements `ys := make([]interface{}, l); copy(ys, uu); uu = ys; g(uu)`, the test
`y >= len(uu)` and, for the last key, `uu[y] = f(uu[y])`; `cur` holds the elements of the
slice `uu` before the copy.  The result is the heap and what the root `v` holds. -/
def armWrite (maxLen : Nat) (f : Value → Value) (h : Heap) (cur : List Value) (l y : Int) :
    Heap × Result :=
  if l < 0 ∨ ((cur.length : Int) < l ∧ (maxLen : Int) < l) then
    (h, .panic "makeslice: len out of range")
  else
    let hy := heapAlloc h (makeCopy l.toNat cur)
    if ((heapRead hy.1 hy.2).length : Int) ≤ y then (hy.1, .val (.arr (heapRead hy.1 hy.2)))
    else
      match goIndex (heapRead hy.1 hy.2) y with
      | none => (hy.1, .panic "index out of range")
      | some c =>
        let h2 := heapWrite hy.1 hy.2 y.toNat (f c)
        (h2, .val (.arr (heapRead h2 hy.2)))

/-- The `[]interface{}` case of the loop body of `updatePaths` for a path of one numeric
component, with the root slice at address `uu`. -/
def arrayArmHeap (maxLen : Nat) (name : String) (f : Value → Value) (h : Heap) (uu : Nat)
    (y : Int) : Heap × Result :=
  let cur := heapRead h uu
  let len : Int := cur.length
  if len ≤ y ∧ name = "setpath" then armWrite maxLen f h cur (wrapInt (y + 1)) y
  else if y < -len then
    if name = "delpaths" then (h, .val (.arr cur)) else (h, .err (.funcTypeError name (.int y)))
  else if y < 0 then armWrite maxLen f h cur len (len + y)
  else armWrite maxLen f h cur len y

/-- Modelled from the spec: `clone` of a slice on the heap (not in `func.go`): a deep copy,
so a fresh backing array with the same elements. -/
def cloneHeap (h : Heap) (a : Nat) : Heap × Nat :=
  heapAlloc h (heapRead h a)

/-- The call `funcSetpath(a, [i], w)` for an array `a` at an address of the heap. -/
def funcSetpathIndexHeap (maxLen : Nat) (h : Heap) (a : Nat) (i : Int) (w : Value) :
    Heap × Result :=
  let hc := cloneHeap h a
  arrayArmHeap maxLen "setpath" (fun _ => w) hc.1 hc.2 i

/-! ## Limits of the Go `int` and of `make` -/

/-- Every `int` component of the path is a value of the Go type `int` (64 bits). -/
def goInts (p : List Value) : Prop :=
  ∀ n, Value.int n ∈ p → -(2 : Int) ^ 63 ≤ n ∧ n < 2 ^ 63

/-- Growing an array up to the index `y` stays within the limits: `y + 1` is a Go `int` and
`make` accepts it as a length. -/
def fitsGrowth (maxLen : Nat) (y : Int) : Prop :=
  y + 1 < 2 ^ 63 ∧ y + 1 ≤ (maxLen : Int)

/-- Every numeric component of the path stays within the limits of growth. -/
def pathFits (maxLen : Nat) (p : List Value) : Prop :=
  ∀ k ∈ p, ∀ y, toInt k = some y → fitsGrowth maxLen y

/-- The only panic the call can end in is the one of `make`. -/
def onlyMakePanic (r : Result) : Prop :=
  ∀ info, r = .panic info → info = "makeslice: len out of range"

/-! ## Theorems: index and slice -/

theorem toIndex_cases (l i : Int) (hl : 0 ≤ l) :
    (i < -l ∧ toIndex l i = -2) ∨ (-l ≤ i ∧ i < 0 ∧ toIndex l i = l + i) ∨
    (0 ≤ i ∧ i < l ∧ toIndex l i = i) ∨ (l ≤ i ∧ 0 ≤ i ∧ toIndex l i = -1) := by
  unfold toIndex
  split_ifs <;> omega

theorem clampBound_range (l i : Int) (hl : 0 ≤ l) :
    0 ≤ clampBound l i ∧ clampBound l i ≤ l := by
  unfold clampBound
  split_ifs <;> omega

theorem stop_resolve (l i : Int) (hl : 0 ≤ l) :
    (if toIndex l i = -1 then l else if toIndex l i = -2 then 0 else toIndex l i)
      = clampBound l i := by
  unfold toIndex clampBound
  split_ifs <;> omega

theorem start_resolve (l m i : Int) (hl : 0 ≤ l) (hm : 0 ≤ m) (hml : m ≤ l) :
    (if toIndex l i = -1 ∨ m < toIndex l i then m else if toIndex l i = -2 then 0
      else toIndex l i) = min (clampBound l i) m := by
  unfold toIndex clampBound
  split_ifs <;> omega

theorem drop_take_sub (a : List Value) (S E : Nat) :
    (a.take E).drop (min S E) = (a.drop S).take (E - S) := by
  rw [List.drop_take]
  rcases Nat.le_total S E with h | h
  · rw [Nat.min_eq_left h]
  · rw [Nat.min_eq_right h, Nat.sub_self, Nat.sub_eq_zero_of_le h]
    simp

/-- The slicing branch of `funcIndexSlice` returns the sub-array between the clamped
bounds and never leaves the bounds of the array. -/
theorem funcIndexSlice_slice (a : List Value) (s e : Option Int) :
    funcIndexSlice s e none a =
      .val (.arr (subArray a ((s.map (clampBound a.length)).getD 0)
        ((e.map (clampBound a.length)).getD a.length))) := by
  have hl : (0 : Int) ≤ a.length := Int.natCast_nonneg _
  cases e with
  | none =>
    cases s with
    | none => simp [funcIndexSlice, subArray]
    | some sv =>
      have hr := clampBound_range a.length sv hl
      have h2 := start_resolve a.length a.length sv hl hl (le_refl _)
      simp only [funcIndexSlice, h2, goSliceFrom, subArray, Option.map_some', Option.getD_some,
        Option.map_none', Option.getD_none]
      rw [min_eq_left hr.2, if_pos ⟨hr.1, hr.2⟩]
      simp only [Int.toNat_ofNat]
      rw [List.take_of_length_le]
      simp
  | some ev =>
    have hre := clampBound_range a.length ev hl
    have h1 := stop_resolve a.length ev hl
    have hlen : ((a.take (clampBound a.length ev).toNat).length : Int)
        = clampBound a.length ev := by
      rw [List.length_take]; omega
    cases s with
    | none =>
      simp only [funcIndexSlice, h1, goSliceTo, subArray, Option.map_some', Option.getD_some,
        Option.map_none', Option.getD_none, if_pos hre]
      simp
    | some sv =>
      have hrs := clampBound_range a.length sv hl
      have h2 := start_resolve a.length (clampBound a.length ev) sv hl hre.1 hre.2
      simp only [funcIndexSlice, h1, goSliceTo, subArray, Option.map_some', Option.getD_some,
        if_pos hre, hlen, h2, goSliceFrom]
      rw [if_pos ⟨le_min hrs.1 hre.1, min_le_right _ _⟩]
      have : (min (clampBound a.length sv) (clampBound a.length ev)).toNat
          = min (clampBound a.length sv).toNat (clampBound a.length ev).toNat := by omega
      rw [this, drop_take_sub]

/-- On an array and bounds that are integers or absent, `funcSlice` is the slicing branch
of `funcIndexSlice`. -/
theorem funcSliceCore_bounds (a : List Value) (s e : Option Int) :
    funcSliceCore (.arr a) (boundValue e) (boundValue s) =
      .val (.arr (subArray a ((s.map (clampBound a.length)).getD 0)
        ((e.map (clampBound a.length)).getD a.length))) := by
  rw [← funcIndexSlice_slice]
  cases s <;> cases e <;> simp [funcSliceCore, boundValue, toInt, funcIndexSlice]

/-- The single-index branch of `funcIndexSlice`. -/
theorem funcIndexSlice_index (a : List Value) (i : Int) :
    (-(a.length : Int) ≤ i ∧ i < 0 →
      ∃ h : (a.length + i).toNat < a.length,
        funcIndexSlice none none (some i) a = .val (a.get ⟨(a.length + i).toNat, h⟩)) ∧
    (0 ≤ i ∧ i < a.length →
      ∃ h : i.toNat < a.length,
        funcIndexSlice none none (some i) a = .val (a.get ⟨i.toNat, h⟩)) ∧
    (i < -(a.length : Int) ∨ (a.length : Int) ≤ i →
      funcIndexSlice none none (some i) a = .val .null) := by
  have hl : (0 : Int) ≤ a.length := Int.natCast_nonneg _
  refine ⟨fun hi => ?_, fun hi => ?_, fun hi => ?_⟩
  · have h : (a.length + i).toNat < a.length := by omega
    refine ⟨h, ?_⟩
    have ht : toIndex a.length i = a.length + i := by
      unfold toIndex; split_ifs <;> omega
    have h0 : ¬ ((a.length : Int) + i < 0) := by omega
    simp only [funcIndexSlice, ht, h0, if_false, goIndex, if_pos (not_lt.mp h0)]
    rw [List.getElem?_eq_getElem h]
    rfl
  · have h : i.toNat < a.length := by omega
    refine ⟨h, ?_⟩
    have ht : toIndex a.length i = i := by
      unfold toIndex; split_ifs <;> omega
    have h0 : ¬ (i < 0) := by omega
    simp only [funcIndexSlice, ht, h0, if_false, goIndex, if_pos hi.1]
    rw [List.getElem?_eq_getElem h]
    rfl
  · have ht : toIndex a.length i < 0 := by
      unfold toIndex; split_ifs <;> omega
    simp only [funcIndexSlice, ht, if_true]

/-- C2: for an array `a` of length `l` and an integer `i`, `funcIndex` returns `a[l+i]` when
`-l ≤ i < 0`, `a[i]` when `0 ≤ i < l`, and `null` otherwise; the result is never an error
value and the call does not panic. -/
theorem funcIndex_array_int (compare : Value → Value → Int) (a : List Value) (i : Int) :
    (-(a.length : Int) ≤ i ∧ i < 0 →
      ∃ h : (a.length + i).toNat < a.length,
        funcIndex compare (.arr a) (.int i) = .val (a.get ⟨(a.length + i).toNat, h⟩)) ∧
    (0 ≤ i ∧ i < a.length →
      ∃ h : i.toNat < a.length,
        funcIndex compare (.arr a) (.int i) = .val (a.get ⟨i.toNat, h⟩)) ∧
    (i < -(a.length : Int) ∨ (a.length : Int) ≤ i →
      funcIndex compare (.arr a) (.int i) = .val .null) ∧
    (funcIndex compare (.arr a) (.int i)).isErr = false ∧
    (funcIndex compare (.arr a) (.int i)).isPanic = false := by
  have hfi : funcIndex compare (.arr a) (.int i) = funcIndexSlice none none (some i) a := rfl
  obtain ⟨h1, h2, h3⟩ := funcIndexSlice_index a i
  rw [hfi]
  refine ⟨h1, h2, h3, ?_⟩
  by_cases hneg : -(a.length : Int) ≤ i ∧ i < 0
  · obtain ⟨_, h⟩ := h1 hneg
    simp [h, Result.isErr, Result.isPanic]
  · by_cases hpos : 0 ≤ i ∧ i < a.length
    · obtain ⟨_, h⟩ := h2 hpos
      simp [h, Result.isErr, Result.isPanic]
    · have h := h3 (by omega)
      simp [h, Result.isErr, Result.isPanic]

/-- C3: for an array `a` of length `l` and bounds that are integers or absent, `funcSlice`
returns the contiguous sub-array from the resolved start up to but excluding the resolved
end, each bound clamped as the specification says (an absent start is `0`, an absent end
is `l`); the result is empty when the start is not before the end, and with both bounds
absent it is `a`. -/
theorem funcSlice_array (a : List Value) (s e : Option Int) :
    funcSlice (.arr a) (boundValue e) (boundValue s) =
      .val (.arr (subArray a ((s.map (clampBound a.length)).getD 0)
        ((e.map (clampBound a.length)).getD a.length))) ∧
    ((e.map (clampBound a.length)).getD a.length ≤ (s.map (clampBound a.length)).getD 0 →
      funcSlice (.arr a) (boundValue e) (boundValue s) = .val (.arr [])) ∧
    funcSlice (.arr a) .null .null = .val (.arr a) := by
  have h : funcSlice (.arr a) (boundValue e) (boundValue s)
      = funcSliceCore (.arr a) (boundValue e) (boundValue s) := rfl
  rw [h, funcSliceCore_bounds]
  refine ⟨rfl, fun hle => ?_, rfl⟩
  have : ((e.map (clampBound a.length)).getD a.length).toNat
      - ((s.map (clampBound a.length)).getD 0).toNat = 0 := by omega
  simp [subArray, this]

/-- C4 as stated fails: with end `1` and start `1` the slice of `"hello"` is not `"e"`. -/
theorem funcSlice_hello_1_1_ne :
    funcSlice (.str "hello") (.int 1) (.int 1) ≠ .val (.str "e") := by
  intro h
  have h2 : funcSlice (.str "hello") (.int 1) (.int 1) = .val (.str "") := rfl
  rw [h2] at h
  injection h with h
  injection h with h
  exact absurd h (by decide)

/-- C4, amended: with end `1` and start `1` the slice of `"hello"` is the empty string; the
one-character string `"e"` is the slice with end `2` and start `1`. -/
theorem funcSlice_hello :
    funcSlice (.str "hello") (.int 1) (.int 1) = .val (.str "") ∧
    funcSlice (.str "hello") (.int 2) (.int 1) = .val (.str "e") := by
  exact ⟨rfl, rfl⟩

/-- A code point of a string survives `rune(..)` and `string(..)` unchanged. -/
theorem runeToChar_intToRune_toNat (c : Char) :
    runeToChar (intToRune (c.toNat : Int)) = c := by
  have hv : c.toNat < 0xd800 ∨ (0xdfff < c.toNat ∧ c.toNat < 0x110000) := c.valid
  have h1 : intToRune (c.toNat : Int) = (c.toNat : Int) := by
    unfold intToRune
    omega
  rw [h1]
  unfold runeToChar
  rw [if_pos]
  · rw [Int.toNat_ofNat, Char.ofNat_toNat]
  · rw [Int.toNat_ofNat]
    exact ⟨Int.natCast_nonneg _, hv⟩

/-- The function `implode` undoes `explode` on every list of code points. -/
theorem implodeRunes_map (cs : List Char) :
    implodeRunes (cs.map (fun c => Value.int (c.toNat : Int))) = some cs := by
  induction cs with
  | nil => rfl
  | cons c cs ih => simp [implodeRunes, ih, runeToChar_intToRune_toNat]

theorem subArray_explode (s : String) (S E : Int) :
    subArray (explode s) S E
      = ((s.data.drop S.toNat).take (E.toNat - S.toNat)).map
          (fun c => Value.int (c.toNat : Int)) := by
  simp [subArray, explode, List.map_take, List.map_drop]

/-- C5: for a string and bounds that are integers or absent, `funcSlice` returns a string:
the result of `implode` on the array slice, with the same bounds, of `explode(s)`; it is
the string of the code points between the clamped bounds.  With end `0` and start `1` the
slice of `"hello"` is the empty string. -/
theorem funcSlice_string (s : String) (st e : Option Int) :
    (∃ xs t, funcSlice (.arr (explode s)) (boundValue e) (boundValue st) = .val (.arr xs) ∧
      implode xs = .val (.str t) ∧
      funcSlice (.str s) (boundValue e) (boundValue st) = .val (.str t) ∧
      t = String.mk ((s.data.drop ((st.map (clampBound s.data.length)).getD 0).toNat).take
            (((e.map (clampBound s.data.length)).getD s.data.length).toNat
              - ((st.map (clampBound s.data.length)).getD 0).toNat))) ∧
    funcSlice (.str "hello") (.int 0) (.int 1) = .val (.str "") := by
  refine ⟨?_, rfl⟩
  have hlen : (explode s).length = s.data.length := by simp [explode]
  have hcore := funcSliceCore_bounds (explode s) st e
  have himp : implode (subArray (explode s)
        ((st.map (clampBound (explode s).length)).getD 0)
        ((e.map (clampBound (explode s).length)).getD (explode s).length))
      = .val (.str (String.mk
          ((s.data.drop ((st.map (clampBound s.data.length)).getD 0).toNat).take
            (((e.map (clampBound s.data.length)).getD s.data.length).toNat
              - ((st.map (clampBound s.data.length)).getD 0).toNat)))) := by
    rw [subArray_explode, hlen]
    unfold implode
    rw [implodeRunes_map]
  refine ⟨_, _, hcore, himp, ?_, rfl⟩
  show (match funcSliceCore (.arr (explode s)) (boundValue e) (boundValue st) with
    | .val (.arr s) => implode s
    | .val (.int s) => implode [.int s]
    | .val .null => .val (.str "")
    | .panic info => .panic info
    | _ => .panic "panic(r)") = _
  rw [hcore]
  exact himp

/-- On an array, a bound that is present and not a number makes `funcSlice` return
`ArrayIndexNotNumberError` carrying an offending bound. -/
theorem funcSlice_array_badBound (a : List Value) (stop start : Value)
    (h : badBound start ∨ badBound stop) :
    ∃ b, (b = start ∨ b = stop) ∧ badBound b ∧
      funcSlice (.arr a) stop start = .err (.arrayIndexNotNumberError b) := by
  by_cases hs : badBound start
  · refine ⟨start, Or.inl rfl, hs, ?_⟩
    obtain ⟨h1, h2⟩ := hs
    cases start <;> simp_all [funcSlice, funcSliceCore, toInt, Value.isNull]
  · have he : badBound stop := h.resolve_left hs
    refine ⟨stop, Or.inr rfl, he, ?_⟩
    obtain ⟨h1, h2⟩ := he
    cases start <;> cases stop <;>
      simp_all [funcSlice, funcSliceCore, toInt, Value.isNull, badBound]

/-- On a string, a bound that is present and not a number makes `funcSlice` panic: the
deferred conversion has no case for the error value. -/
theorem funcSlice_string_badBound (w : String) (stop start : Value)
    (h : badBound start ∨ badBound stop) :
    funcSlice (.str w) stop start = .panic "panic(r)" := by
  obtain ⟨b, _, _, hb⟩ := funcSlice_array_badBound (explode w) stop start h
  have hb2 : funcSliceCore (.arr (explode w)) stop start = .err (.arrayIndexNotNumberError b) := hb
  show (match funcSliceCore (.arr (explode w)) stop start with
    | .val (.arr s) => implode s
    | .val (.int s) => implode [.int s]
    | .val .null => .val (.str "")
    | .panic info => .panic info
    | _ => .panic "panic(r)") = _
  rw [hb2]

/-- A container that is not an array, a string or `null` makes `funcSlice` return
`ExpectedArrayError` carrying the container. -/
theorem funcSlice_other_container (v stop start : Value)
    (hv : ∀ a, v ≠ .arr a) (hs : ∀ w, v ≠ .str w) (hn : v ≠ .null) :
    funcSlice v stop start = .err (.expectedArrayError v) := by
  cases v with
  | arr a => exact absurd rfl (hv a)
  | str w => exact absurd rfl (hs w)
  | null => exact absurd rfl hn
  | _ => rfl

/-- C6, at the failing input: on the string `"abc"` with end `"x"` and no start,
`funcSlice` panics instead of returning `ArrayIndexNotNumberError`, while on the array of
the same code points the error value is returned. -/
theorem funcSlice_string_badBound_panics :
    funcSlice (.str "abc") (.str "x") .null = .panic "panic(r)" ∧
    funcSlice (.arr (explode "abc")) (.str "x") .null
      = .err (.arrayIndexNotNumberError (.str "x")) := by
  exact ⟨rfl, rfl⟩

/-! ## Theorems: subsequence search -/

theorem indexNeq_spec (compare : Value → Value → Int) (v : List Value) (i : Nat) :
    ∀ (xs : List Value) (j : Nat), i + j + xs.length ≤ v.length →
      ∃ b, indexNeq compare v i j xs = some b ∧
        (b = false ↔ ∀ k w y, v[i + j + k]? = some w → xs[k]? = some y → compare w y = 0) := by
  intro xs
  induction xs with
  | nil =>
    intro j _
    exact ⟨false, rfl, by simp⟩
  | cons y ys ih =>
    intro j hb
    have hlt : i + j < v.length := by simp at hb; omega
    have hget : goIndex v ((i + j : Nat) : Int) = some v[i + j] := by
      unfold goIndex
      rw [if_pos (Int.natCast_nonneg _), Int.toNat_ofNat, List.getElem?_eq_getElem hlt]
    by_cases hc : compare v[i + j] y = 0
    · obtain ⟨b, hb1, hb2⟩ := ih (j + 1) (by simp at hb ⊢; omega)
      refine ⟨b, ?_, ?_⟩
      · simp only [indexNeq, hget]
        rw [if_neg (by simpa using hc)]
        exact hb1
      · rw [hb2]
        constructor
        · intro h k w y' hw hy
          cases k with
          | zero =>
            simp only [Nat.add_zero, List.getElem?_eq_getElem hlt, Option.some.injEq] at hw
            simp only [List.getElem?_cons_zero, Option.some.injEq] at hy
            rw [← hw, ← hy]; exact hc
          | succ k =>
            simp only [List.getElem?_cons_succ] at hy
            exact h k w y' (by rw [← hw]; congr 1; omega) hy
        · intro h k w y' hw hy
          exact h (k + 1) w y' (by rw [← hw]; congr 1; omega) (by simpa using hy)
    · refine ⟨true, ?_, ?_⟩
      · simp only [indexNeq, hget]
        rw [if_pos (by simpa using hc)]
      · simp only [Bool.true_eq_false, false_iff]
        intro h
        exact hc (h 0 v[i + j] y (by simp [List.getElem?_eq_getElem hlt]) (by simp))

theorem indexNeq_occursAt (compare : Value → Value → Int) (v x : List Value) (i : Nat)
    (hfit : i + x.length ≤ v.length) :
    ∃ b, indexNeq compare v i 0 x = some b ∧ (b = false ↔ occursAt compare v x i) := by
  obtain ⟨b, h1, h2⟩ := indexNeq_spec compare v i x 0 (by omega)
  refine ⟨b, h1, ?_⟩
  rw [h2]
  unfold occursAt
  simp only [Nat.add_zero]
  exact ⟨fun h => ⟨hfit, h⟩, fun h => h.2⟩

theorem indexLoop_spec (compare : Value → Value → Int) (v x : List Value)
    (hx : 0 < x.length) :
    ∀ (n i : Nat) (acc : List Value), i + n = v.length →
      ∃ is : List Nat,
        indexLoop compare v x n i acc
          = .val (.arr (acc ++ is.map (fun (k : Nat) => Value.int (k : Int)))) ∧
        is.Pairwise (· < ·) ∧
        ∀ k, k ∈ is ↔ (i ≤ k ∧ occursAt compare v x k) := by
  intro n
  induction n with
  | zero =>
    intro i acc hi
    refine ⟨[], by simp [indexLoop], List.Pairwise.nil, ?_⟩
    intro k
    simp only [List.not_mem_nil, false_iff, not_and]
    intro hk hocc
    have := hocc.1
    omega
  | succ n ih =>
    intro i acc hi
    by_cases hfit : i + x.length ≤ v.length
    · have hcond : (i : Int) < (v.length : Int) ∧
          (i : Int) < (v.length : Int) - (x.length : Int) + 1 := by omega
      obtain ⟨b, hb1, hb2⟩ := indexNeq_occursAt compare v x i hfit
      obtain ⟨is, h1, h2, h3⟩ := ih (i + 1) (if b then acc else acc ++ [.int (i : Int)])
        (by omega)
      cases b with
      | true =>
        refine ⟨is, ?_, h2, ?_⟩
        · simp only [indexLoop, if_pos hcond, hb1]
          simpa using h1
        · intro k
          rw [h3]
          constructor
          · exact fun h => ⟨by omega, h.2⟩
          · intro h
            refine ⟨?_, h.2⟩
            rcases Nat.eq_or_lt_of_le h.1 with he | hl
            · subst he
              exact absurd (hb2.mpr h.2) (by simp)
            · exact hl
      | false =>
        refine ⟨i :: is, ?_, ?_, ?_⟩
        · simp only [indexLoop, if_pos hcond, hb1]
          simpa using h1
        · refine List.Pairwise.cons ?_ h2
          intro k hk
          have := ((h3 k).mp hk).1
          omega
        · intro k
          simp only [List.mem_cons, h3]
          constructor
          · rintro (rfl | h)
            · exact ⟨le_refl _, hb2.mp rfl⟩
            · exact ⟨by omega, h.2⟩
          · intro h
            rcases Nat.eq_or_lt_of_le h.1 with he | hl
            · exact Or.inl he.symm
            · exact Or.inr ⟨hl, h.2⟩
    · have hcond : ¬ ((i : Int) < (v.length : Int) ∧
          (i : Int) < (v.length : Int) - (x.length : Int) + 1) := by omega
      refine ⟨[], by simp only [indexLoop, if_neg hcond]; simp, List.Pairwise.nil, ?_⟩
      intro k
      simp only [List.not_mem_nil, false_iff, not_and]
      intro hk hocc
      have := hocc.1
      omega

/-- C7: for arrays `v` and `x` with `x` non-empty, `funcIndex` returns the strictly
ascending list of exactly the offsets at which `x` occurs contiguously in `v` under the
comparator; the list is empty when `x` is longer than `v`; for the empty selector the
result is the empty list. -/
theorem funcIndex_subsequence (compare : Value → Value → Int) (v x : List Value)
    (hx : x ≠ []) :
    (∃ is : List Nat,
      funcIndex compare (.arr v) (.arr x) = .val (.arr (is.map (fun (k : Nat) => Value.int (k : Int)))) ∧
      is.Pairwise (· < ·) ∧
      (∀ k, k ∈ is ↔ occursAt compare v x k) ∧
      (v.length < x.length → is = [])) ∧
    funcIndex compare (.arr v) (.arr []) = .val (.arr []) := by
  refine ⟨?_, rfl⟩
  have hpos : 0 < x.length := List.length_pos.mpr hx
  obtain ⟨is, h1, h2, h3⟩ := indexLoop_spec compare v x hpos v.length 0 [] (by omega)
  refine ⟨is, ?_, h2, ?_, ?_⟩
  · simp only [funcIndex, if_neg (Nat.pos_iff_ne_zero.mp hpos)]
    simpa using h1
  · intro k
    rw [h3]
    simp
  · intro hlt
    apply List.eq_nil_iff_forall_not_mem.mpr
    intro k hk
    have := ((h3 k).mp hk).2.1
    omega

/-- C7 on the example of the specification, with a comparator that is the difference on
integers: the occurrences of `[2,3]` in `[1,2,3,2,3]` are at offsets `1` and `3`. -/
theorem funcIndex_subsequence_witness :
    [Value.int 2, Value.int 3] ≠ [] ∧
    funcIndex (fun a b => match a, b with | .int m, .int n => m - n | _, _ => 1)
      (.arr [.int 1, .int 2, .int 3, .int 2, .int 3]) (.arr [.int 2, .int 3])
      = .val (.arr [.int 1, .int 3]) ∧
    ((∃ is : List Nat,
      funcIndex (fun a b => match a, b with | .int m, .int n => m - n | _, _ => 1)
        (.arr [.int 1, .int 2, .int 3, .int 2, .int 3]) (.arr [.int 2, .int 3])
        = .val (.arr (is.map (fun (k : Nat) => Value.int (k : Int)))) ∧
      is.Pairwise (· < ·) ∧
      (∀ k, k ∈ is ↔ occursAt (fun a b => match a, b with | .int m, .int n => m - n | _, _ => 1)
        [.int 1, .int 2, .int 3, .int 2, .int 3] [.int 2, .int 3] k) ∧
      ([Value.int 1, Value.int 2, Value.int 3, Value.int 2, Value.int 3].length
          < [Value.int 2, Value.int 3].length → is = [])) ∧
    funcIndex (fun a b => match a, b with | .int m, .int n => m - n | _, _ => 1)
      (.arr [.int 1, .int 2, .int 3, .int 2, .int 3]) (.arr []) = .val (.arr [])) :=
  ⟨by simp, rfl, funcIndex_subsequence _ _ _ (by simp)⟩

/-! ## Theorems: the path walk -/

theorem mapGet_mapSet_self (m : List (String × Value)) (k : String) (w : Value) :
    mapGet (mapSet m k w) k = some w := by
  induction m with
  | nil => simp [mapSet, mapGet]
  | cons kv m ih =>
    obtain ⟨k', w'⟩ := kv
    by_cases h : k' = k
    · simp [mapSet, mapGet, h]
    · simp [mapSet, mapGet, h, ih]

theorem mapSet_of_mapGet (m : List (String × Value)) (k : String) (w : Value)
    (h : mapGet m k = some w) : mapSet m k w = m := by
  induction m with
  | nil => simp [mapGet] at h
  | cons kv m ih =>
    obtain ⟨k', w'⟩ := kv
    by_cases hk : k' = k
    · simp [mapGet, hk] at h
      simp [mapSet, hk, h]
    · simp [mapGet, hk] at h
      simp [mapSet, hk, ih h]

theorem mapIndex_mapSet_self (m : List (String × Value)) (k : String) (w : Value) :
    mapIndex (mapSet m k w) k = w := by
  simp [mapIndex, mapGet_mapSet_self]

theorem updateLoop_str {maxLen : Nat} (name : String) (f : Value → Value) (u : Value) (k : String)
    (rest : List Value) :
    updateLoop maxLen name f u (.str k :: rest)
      = objectCase name f u k rest.isEmpty (fun c => updateLoop maxLen name f c rest) := rfl

theorem updateLoop_int {maxLen : Nat} (name : String) (f : Value → Value) (u : Value) (n : Int)
    (rest : List Value) :
    updateLoop maxLen name f u (.int n :: rest)
      = arrayCase maxLen name f u n rest.isEmpty (fun c => updateLoop maxLen name f c rest) := rfl

theorem updateLoop_float {maxLen : Nat} (name : String) (f : Value → Value) (u : Value) (b : Nat)
    (rest : List Value) :
    updateLoop maxLen name f u (.float b :: rest)
      = arrayCase maxLen name f u (f64ToInt b) rest.isEmpty (fun c => updateLoop maxLen name f c rest) := rfl

theorem setpath_ne_delpaths : ¬ ("setpath" = "delpaths") := by decide

theorem delpaths_ne_setpath : ¬ ("delpaths" = "setpath") := by decide

theorem makeCopy_length (l : Nat) (uu : List Value) : (makeCopy l uu).length = l := by
  simp [makeCopy]
  omega

theorem makeCopy_self (uu : List Value) : makeCopy uu.length uu = uu := by
  simp [makeCopy]

/-- Inside the copied slice, `arrayStep` reads position `y` and writes it back. -/
theorem arrayStep_inrange {maxLen : Nat} (f : Value → Value) (uu : List Value) (l y : Int)
    (last : Bool) (next : Value → Result) (hl : 0 ≤ l) (hy0 : 0 ≤ y) (hy : y < l)
    (hm : l ≤ uu.length ∨ l ≤ maxLen) :
    ∃ c, (makeCopy l.toNat uu)[y.toNat]? = some c ∧
      arrayStep maxLen f uu l y last next =
        if last then .val (.arr ((makeCopy l.toNat uu).set y.toNat (f c)))
        else
          match next c with
          | .val w => .val (.arr ((makeCopy l.toNat uu).set y.toNat w))
          | r => r := by
  have hlen := makeCopy_length l.toNat uu
  have hlt : y.toNat < (makeCopy l.toNat uu).length := by omega
  refine ⟨(makeCopy l.toNat uu)[y.toNat], List.getElem?_eq_getElem hlt, ?_⟩
  have h1 : ¬ (l < 0 ∨ ((uu.length : Int) < l ∧ (maxLen : Int) < l)) := by omega
  have h2 : ¬ (((makeCopy l.toNat uu).length : Int) ≤ y) := by omega
  simp only [arrayStep, if_neg h1, if_neg h2, goIndex, if_pos hy0,
    List.getElem?_eq_getElem hlt]

/-- The sum `y + 1` of a Go `int` that is not negative: itself, or negative after the wrap
at the largest `int`. -/
theorem wrapInt_succ (y : Int) (h0 : 0 ≤ y) (h1 : y < 2 ^ 63) :
    (y + 1 < 2 ^ 63 ∧ wrapInt (y + 1) = y + 1) ∨ wrapInt (y + 1) < 0 := by
  unfold wrapInt
  omega

theorem wrapInt_succ_eq (y : Int) (h0 : 0 ≤ y) (h1 : y + 1 < 2 ^ 63) :
    wrapInt (y + 1) = y + 1 := by
  unfold wrapInt
  omega

/-- For a slice within the limit of `make` the test of `arrayStep` is: the length is
negative or above the limit. -/
theorem make_check_iff (maxLen : Nat) (uu : List Value) (l : Int)
    (hlen : uu.length ≤ maxLen) :
    (l < 0 ∨ ((uu.length : Int) < l ∧ (maxLen : Int) < l)) ↔ (l < 0 ∨ (maxLen : Int) < l) := by
  omega

/-- When `make` rejects the length, the array step panics. -/
theorem arrayStep_make_panic {maxLen : Nat} (f : Value → Value) (uu : List Value) (l y : Int)
    (last : Bool) (next : Value → Result)
    (h : l < 0 ∨ ((uu.length : Int) < l ∧ (maxLen : Int) < l)) :
    arrayStep maxLen f uu l y last next = .panic "makeslice: len out of range" := by
  simp only [arrayStep, if_pos h]

/-- An array step that returns a value got its length past `make`. -/
theorem arrayStep_val_make {maxLen : Nat} (f : Value → Value) (uu : List Value) (l y : Int)
    (last : Bool) (next : Value → Result) (u1 : Value)
    (h : arrayStep maxLen f uu l y last next = .val u1) :
    0 ≤ l ∧ (l ≤ uu.length ∨ l ≤ maxLen) := by
  by_contra hc
  have hp : l < 0 ∨ ((uu.length : Int) < l ∧ (maxLen : Int) < l) := by omega
  rw [arrayStep_make_panic f uu l y last next hp] at h
  cases h

theorem updateLoop_null_keys {maxLen : Nat} (f : Value → Value) :
    ∀ (ks : List String), ks ≠ [] →
      updateLoop maxLen "setpath" f .null (ks.map Value.str) = .val (keyChain ks (f .null)) := by
  intro ks
  induction ks with
  | nil => intro h; exact absurd rfl h
  | cons k ks ih =>
    intro _
    rw [List.map_cons, updateLoop_str]
    cases ks with
    | nil =>
      simp [objectCase, objectStep, Value.isNull, mapGet, mapSet, mapIndex, keyChain]
    | cons k2 ks2 =>
      have ih2 := ih (by simp)
      rw [List.map_cons] at ih2
      simp only [objectCase, objectStep, Value.isNull, mapGet, mapSet, mapIndex, keyChain, ih2,
        setpath_ne_delpaths, and_false, if_false, List.map_cons, List.isEmpty_cons,
        Option.getD_none]
      simp

theorem replicate_succ_set (n : Nat) (x : Value) :
    (List.replicate (n + 1) Value.null).set n x = List.replicate n Value.null ++ [x] := by
  induction n with
  | zero => rfl
  | succ n ih =>
    rw [List.replicate_succ, List.set_cons_succ, ih]
    rfl

/-- At the largest Go `int` the length `y + 1` wraps to a negative number and `make`
panics, whatever the limit of the platform. -/
theorem funcSetpath_null_maxInt {maxLen : Nat} (x : Value) :
    funcSetpath maxLen .null (.arr [.int 9223372036854775807]) x
      = .panic "makeslice: len out of range" := by
  rfl

/-- C8, as stated, fails: at `n = 9223372036854775807` (the largest `int`)
`setpath(null, [n], "x")` is not the array of `n` nulls followed by `"x"`: the length
`n + 1` wraps around and `make` panics.  Here the limit of `make` is the largest `int`
itself. -/
theorem funcSetpath_null_materializes_fails :
    funcSetpath 9223372036854775807 .null
        (.arr [.int ((9223372036854775807 : Nat) : Int)]) (.str "x")
      = .panic "makeslice: len out of range" ∧
    funcSetpath 9223372036854775807 .null
        (.arr [.int ((9223372036854775807 : Nat) : Int)]) (.str "x")
      ≠ .val (.arr (List.replicate 9223372036854775807 Value.null ++ [.str "x"])) := by
  have h : funcSetpath 9223372036854775807 .null
      (.arr [.int ((9223372036854775807 : Nat) : Int)]) (.str "x")
      = .panic "makeslice: len out of range" := rfl
  refine ⟨h, fun h1 => ?_⟩
  rw [h] at h1
  cases h1

/-- C8, amended: on a `null` root `funcSetpath` builds the missing containers: for a
non-empty list of string keys the chain of single-key objects, and for an index `n ≥ 0`
with `n + 1` a Go `int` that `make` accepts as a length, the array of `n` nulls followed by
the value. -/
theorem funcSetpath_null_materializes {maxLen : Nat} (ks : List String) (n : Nat) (x : Value)
    (hks : ks ≠ []) (hn : fitsGrowth maxLen (n : Int)) :
    funcSetpath maxLen .null (.arr (ks.map Value.str)) x = .val (keyChain ks x) ∧
    funcSetpath maxLen .null (.arr [.int (n : Int)]) x
      = .val (.arr (List.replicate n Value.null ++ [x])) := by
  constructor
  · have h := @updateLoop_null_keys maxLen (fun _ => x) ks hks
    have hne : (ks.map Value.str).isEmpty = false := by
      cases ks with
      | nil => exact absurd rfl hks
      | cons _ _ => rfl
    simp only [funcSetpath, updatePaths, clone, hne]
    exact h
  · obtain ⟨hn1, hn2⟩ := hn
    obtain ⟨c, _, hc⟩ := @arrayStep_inrange maxLen (fun _ => x) [] ((n : Int) + 1) n true
      (fun c => updateLoop maxLen "setpath" (fun _ => x) c []) (by omega) (by omega) (by omega)
      (Or.inr hn2)
    have hstep : funcSetpath maxLen .null (.arr [.int (n : Int)]) x
        = arrayStep maxLen (fun _ => x) [] (wrapInt ((n : Int) + 1)) n true
            (fun c => updateLoop maxLen "setpath" (fun _ => x) c []) := by
      simp [funcSetpath, updatePaths, clone, updateLoop_int, arrayCase]
    rw [hstep, wrapInt_succ_eq _ (by omega) hn1, hc]
    have hm : makeCopy ((n : Int) + 1).toNat [] = List.replicate (n + 1) Value.null := by
      have : ((n : Int) + 1).toNat = n + 1 := by omega
      rw [this]
      simp [makeCopy]
    simp only [if_true, hm, Int.toNat_ofNat, replicate_succ_set]

/-- C8 on the examples of the specification, with `make` accepting up to 1000 elements. -/
theorem funcSetpath_null_materializes_witness :
    (["a", "b"] ≠ [] ∧ fitsGrowth 1000 ((2 : Nat) : Int)) ∧
    (funcSetpath 1000 .null (.arr (["a", "b"].map Value.str)) (.int 1)
        = .val (keyChain ["a", "b"] (.int 1)) ∧
      funcSetpath 1000 .null (.arr [.int ((2 : Nat) : Int)]) (.int 1)
        = .val (.arr (List.replicate 2 Value.null ++ [.int 1]))) ∧
    funcSetpath 1000 .null (.arr [.str "a", .str "b"]) (.int 1)
      = .val (.obj [("a", .obj [("b", .int 1)])]) ∧
    funcSetpath 1000 .null (.arr [.int 2]) (.str "x") = .val (.arr [.null, .null, .str "x"]) :=
  ⟨⟨by simp, by unfold fitsGrowth; omega⟩,
    funcSetpath_null_materializes ["a", "b"] 2 (.int 1) (by simp) (by unfold fitsGrowth; omega),
    rfl, rfl⟩

theorem funcIndexSlice_index_some (a : List Value) (i pos : Int) (w : Value)
    (hpos : toIndex a.length i = pos) (h0 : 0 ≤ pos) (hw : a[pos.toNat]? = some w) :
    funcIndexSlice none none (some i) a = .val w := by
  have h1 : ¬ (pos < 0) := by omega
  simp only [funcIndexSlice, hpos, if_neg h1, goIndex, if_pos h0, hw]

/-- The conversion `int(x)` of a `float64` is a Go `int`. -/
theorem f64ToInt_range (b : Nat) : -(2 : Int) ^ 63 ≤ f64ToInt b ∧ f64ToInt b < 2 ^ 63 := by
  unfold f64ToInt
  simp only []
  split_ifs <;> omega

/-- The index of a numeric component of a path of Go values is at most the largest
`int`. -/
theorem goInts_toInt (p : List Value) (hi : goInts p) (k : Value) (hk : k ∈ p) (y : Int)
    (hy : toInt k = some y) : y < 2 ^ 63 := by
  cases k with
  | int n =>
    simp only [toInt, Option.some.injEq] at hy
    subst hy
    exact (hi n hk).2
  | float b =>
    simp only [toInt, Option.some.injEq] at hy
    subst hy
    exact (f64ToInt_range b).2
  | _ => simp [toInt] at hy

theorem goInts_tail (key : Value) (rest : List Value) (hi : goInts (key :: rest)) :
    goInts rest :=
  fun n hn => hi n (List.mem_cons_of_mem _ hn)

/-- In `setpath` mode an array step that returns a value returns an array that holds, at
the position written, a value from which the rest of the path reads the new value. -/
theorem arrayStep_setpath_val {maxLen : Nat} (x : Value) (uu : List Value) (l y : Int)
    (last : Bool) (next G : Value → Result) (u1 : Value) (hy0 : 0 ≤ y) (hy : y < l)
    (hlast : last = true → G x = .val x)
    (hnext : last = false → ∀ c w, next c = .val w → G w = .val x)
    (hx : arrayStep maxLen (fun _ => x) uu l y last next = .val u1) :
    ∃ ys w, u1 = .arr ys ∧ ys.length = l.toNat ∧ ys[y.toNat]? = some w ∧ G w = .val x := by
  obtain ⟨hl, hm⟩ := arrayStep_val_make _ uu l y last next u1 hx
  obtain ⟨c, _, hc⟩ := @arrayStep_inrange maxLen (fun _ => x) uu l y last next hl hy0 hy hm
  have hlen := makeCopy_length l.toNat uu
  have hlt : y.toNat < (makeCopy l.toNat uu).length := by omega
  rw [hc] at hx
  cases last with
  | true =>
    simp only [if_true] at hx
    injection hx with hx
    subst hx
    refine ⟨_, x, rfl, ?_, List.getElem?_set_self hlt, hlast rfl⟩
    rw [List.length_set, hlen]
  | false =>
    cases hn : next c with
    | val w =>
      rw [hn] at hx
      simp only [Bool.false_eq_true, if_false] at hx
      injection hx with hx
      subst hx
      refine ⟨_, w, rfl, ?_, List.getElem?_set_self hlt, hnext rfl c w hn⟩
      rw [List.length_set, hlen]
    | err e => rw [hn] at hx; simp at hx
    | panic info => rw [hn] at hx; simp at hx

theorem arrayCase_setpath_val {maxLen : Nat} (x u u1 : Value) (y : Int) (last : Bool)
    (next G : Value → Result) (hy : y < 2 ^ 63)
    (hlast : last = true → G x = .val x)
    (hnext : last = false → ∀ c w, next c = .val w → G w = .val x)
    (hx : arrayCase maxLen "setpath" (fun _ => x) u y last next = .val u1) :
    ∃ ys w, u1 = .arr ys ∧ funcIndexSlice none none (some y) ys = .val w ∧ G w = .val x := by
  have key : ∀ uu : List Value,
      arrayCase maxLen "setpath" (fun _ => x) (.arr uu) y last next = .val u1 →
      ∃ ys w, u1 = .arr ys ∧ funcIndexSlice none none (some y) ys = .val w ∧
        G w = .val x := by
    intro uu hx
    have hl : (0 : Int) ≤ uu.length := Int.natCast_nonneg _
    by_cases hA : (uu.length : Int) ≤ y
    · have hs : arrayCase maxLen "setpath" (fun _ => x) (.arr uu) y last next
          = arrayStep maxLen (fun _ => x) uu (wrapInt (y + 1)) y last next := by
        simp [arrayCase, hA]
      rw [hs] at hx
      have hw : wrapInt (y + 1) = y + 1 := by
        rcases wrapInt_succ y (by omega) hy with ⟨_, h⟩ | h
        · exact h
        · have := (arrayStep_val_make _ uu _ y last next u1 hx).1
          omega
      rw [hw] at hx
      obtain ⟨ys, w, h1, h2, h3, h4⟩ := arrayStep_setpath_val x uu (y + 1) y last next G u1
        (by omega) (by omega) hlast hnext hx
      refine ⟨ys, w, h1, ?_, h4⟩
      apply funcIndexSlice_index_some ys y y w _ (by omega) h3
      unfold toIndex
      rw [h2]
      split_ifs <;> omega
    · by_cases hB : y < -(uu.length : Int)
      · have hs : arrayCase maxLen "setpath" (fun _ => x) (.arr uu) y last next
            = .err (.funcTypeError "setpath" (.int y)) := by
          simp [arrayCase, hA, hB]
        rw [hs] at hx
        cases hx
      · by_cases hC : y < 0
        · have hs : arrayCase maxLen "setpath" (fun _ => x) (.arr uu) y last next
              = arrayStep maxLen (fun _ => x) uu uu.length (uu.length + y) last next := by
            simp [arrayCase, hA, hB, hC]
          rw [hs] at hx
          obtain ⟨ys, w, h1, h2, h3, h4⟩ := arrayStep_setpath_val x uu uu.length
            (uu.length + y) last next G u1 (by omega) (by omega) hlast hnext hx
          refine ⟨ys, w, h1, ?_, h4⟩
          apply funcIndexSlice_index_some ys y (uu.length + y) w _ (by omega) h3
          unfold toIndex
          rw [h2]
          split_ifs <;> omega
        · have hs : arrayCase maxLen "setpath" (fun _ => x) (.arr uu) y last next
              = arrayStep maxLen (fun _ => x) uu uu.length y last next := by
            simp [arrayCase, hA, hB, hC]
          rw [hs] at hx
          obtain ⟨ys, w, h1, h2, h3, h4⟩ := arrayStep_setpath_val x uu uu.length
            y last next G u1 (by omega) (by omega) hlast hnext hx
          refine ⟨ys, w, h1, ?_, h4⟩
          apply funcIndexSlice_index_some ys y y w _ (by omega) h3
          unfold toIndex
          rw [h2]
          split_ifs <;> omega
  cases u with
  | null => exact key [] hx
  | arr uu => exact key uu hx
  | _ => simp [arrayCase] at hx

theorem objectCase_setpath_val (x u u1 : Value) (k : String) (last : Bool)
    (next G : Value → Result)
    (hlast : last = true → G x = .val x)
    (hnext : last = false → ∀ c w, next c = .val w → G w = .val x)
    (hx : objectCase "setpath" (fun _ => x) u k last next = .val u1) :
    ∃ uu, u1 = .obj uu ∧ G (mapIndex uu k) = .val x := by
  have key : ∀ uu : List (String × Value),
      objectStep "setpath" (fun _ => x) uu k last next = .val u1 →
      ∃ uu1, u1 = .obj uu1 ∧ G (mapIndex uu1 k) = .val x := by
    intro uu hx
    have hs : objectStep "setpath" (fun _ => x) uu k last next
        = if last then .val (.obj (mapSet uu k x))
          else
            match next (mapIndex uu k) with
            | .val w => .val (.obj (mapSet uu k w))
            | r => r := by
      simp [objectStep, setpath_ne_delpaths]
    rw [hs] at hx
    cases last with
    | true =>
      simp only [if_true] at hx
      injection hx with hx
      subst hx
      refine ⟨_, rfl, ?_⟩
      rw [mapIndex_mapSet_self]
      exact hlast rfl
    | false =>
      cases hn : next (mapIndex uu k) with
      | val w =>
        rw [hn] at hx
        simp only [Bool.false_eq_true, if_false] at hx
        injection hx with hx
        subst hx
        refine ⟨_, rfl, ?_⟩
        rw [mapIndex_mapSet_self]
        exact hnext rfl _ w hn
      | err e => rw [hn] at hx; simp at hx
      | panic info => rw [hn] at hx; simp at hx
  cases u with
  | null => exact key [] (by simpa [objectCase, Value.isNull, setpath_ne_delpaths] using hx)
  | obj uu => exact key uu (by simpa [objectCase, Value.isNull] using hx)
  | _ => simp [objectCase, Value.isNull] at hx

/-- A walk of `setpath` that returns a value returns one from which the same keys read the
value written. -/
theorem setpath_getpath_loop {maxLen : Nat} (compare : Value → Value → Int)
    (root p x : Value) :
    ∀ keys : List Value, (∀ k ∈ keys, pathKey k = true) → goInts keys → keys ≠ [] →
      ∀ u u1, updateLoop maxLen "setpath" (fun _ => x) u keys = .val u1 →
        getpathLoop compare root p u1 keys = .val x := by
  intro keys
  induction keys with
  | nil => intro _ _ h; exact absurd rfl h
  | cons key rest ih =>
    intro hk hi _ u u1 hx
    have hlast : rest.isEmpty = true → getpathLoop compare root p x rest = .val x := by
      intro h
      rw [List.isEmpty_iff.mp h]
      rfl
    have hnext : rest.isEmpty = false → ∀ c w,
        updateLoop maxLen "setpath" (fun _ => x) c rest = .val w →
        getpathLoop compare root p w rest = .val x := by
      intro h c w hc
      have hr : rest ≠ [] := by
        intro h0
        rw [h0] at h
        simp at h
      exact ih (fun k hk1 => hk k (List.mem_cons_of_mem _ hk1)) (goInts_tail key rest hi)
        hr c w hc
    have hkey := hk key (List.mem_cons_self _ _)
    cases key with
    | str k =>
      rw [updateLoop_str] at hx
      obtain ⟨uu, h1, h2⟩ := objectCase_setpath_val x u u1 k rest.isEmpty _
        (fun w => getpathLoop compare root p w rest) hlast hnext hx
      subst h1
      simpa [getpathLoop, funcIndex] using h2
    | int n =>
      rw [updateLoop_int] at hx
      obtain ⟨ys, w, h1, h2, h3⟩ := arrayCase_setpath_val x u u1 n rest.isEmpty _
        (fun w => getpathLoop compare root p w rest)
        (goInts_toInt _ hi _ (List.mem_cons_self _ _) n rfl) hlast hnext hx
      subst h1
      simpa [getpathLoop, funcIndex, funcIndexNumber, h2] using h3
    | float b =>
      rw [updateLoop_float] at hx
      obtain ⟨ys, w, h1, h2, h3⟩ := arrayCase_setpath_val x u u1 (f64ToInt b) rest.isEmpty _
        (fun w => getpathLoop compare root p w rest) (f64ToInt_range b).2 hlast hnext hx
      subst h1
      simpa [getpathLoop, funcIndex, funcIndexNumber, h2] using h3
    | _ => simp [pathKey] at hkey

/-! ## Theorems: where the walk can panic -/

/-- An array step at a position that is not negative panics only in `make`, or where the
rest of the walk panics: the access `uu[y]` is within bounds. -/
theorem arrayStep_panic_cases {maxLen : Nat} (f : Value → Value) (uu : List Value) (l y : Int)
    (last : Bool) (next : Value → Result) (info : String) (hy : 0 ≤ y)
    (h : arrayStep maxLen f uu l y last next = .panic info) :
    ((l < 0 ∨ ((uu.length : Int) < l ∧ (maxLen : Int) < l)) ∧
      info = "makeslice: len out of range") ∨ ∃ c, next c = .panic info := by
  by_cases hm : l < 0 ∨ ((uu.length : Int) < l ∧ (maxLen : Int) < l)
  · rw [arrayStep_make_panic f uu l y last next hm] at h
    injection h with h
    exact Or.inl ⟨hm, h.symm⟩
  · by_cases hlt : y < l
    · obtain ⟨c, _, hc⟩ := @arrayStep_inrange maxLen f uu l y last next (by omega) hy hlt
        (by omega)
      rw [hc] at h
      cases last with
      | true => simp at h
      | false =>
        cases hr : next c with
        | val w => rw [hr] at h; simp at h
        | err e => rw [hr] at h; simp at h
        | panic i2 =>
          rw [hr] at h
          simp only [Bool.false_eq_true, if_false] at h
          injection h with h
          subst h
          exact Or.inr ⟨c, hr⟩
    · have h2 : ((makeCopy l.toNat uu).length : Int) ≤ y := by
        rw [makeCopy_length]; omega
      simp only [arrayStep, if_neg hm, if_pos h2] at h
      cases h

/-- The numeric arm panics only when `setpath` grows the array beyond the limits, or where
the rest of the walk panics. -/
theorem arrayCase_panic_cases {maxLen : Nat} (name : String) (f : Value → Value) (u : Value)
    (y : Int) (last : Bool) (next : Value → Result) (info : String)
    (h : arrayCase maxLen name f u y last next = .panic info) :
    (name = "setpath" ∧ ¬ fitsGrowth maxLen y ∧ info = "makeslice: len out of range") ∨
      ∃ c, next c = .panic info := by
  have key : ∀ uu : List Value,
      arrayCase maxLen name f (.arr uu) y last next = .panic info →
      (name = "setpath" ∧ ¬ fitsGrowth maxLen y ∧ info = "makeslice: len out of range") ∨
        ∃ c, next c = .panic info := by
    intro uu h
    have hl : (0 : Int) ≤ uu.length := Int.natCast_nonneg _
    by_cases hA : (uu.length : Int) ≤ y ∧ name = "setpath"
    · have hs : arrayCase maxLen name f (.arr uu) y last next
          = arrayStep maxLen f uu (wrapInt (y + 1)) y last next := by
        simp only [arrayCase, if_pos hA]
      rw [hs] at h
      rcases arrayStep_panic_cases f uu _ y last next info (by omega) h with ⟨hm, hi⟩ | hc
      · refine Or.inl ⟨hA.2, ?_, hi⟩
        intro hfit
        have hw := wrapInt_succ_eq y (by omega) hfit.1
        rw [hw] at hm
        have := hfit.2
        omega
      · exact Or.inr hc
    · by_cases hB : y < -(uu.length : Int)
      · have hs : arrayCase maxLen name f (.arr uu) y last next
            = if name = "delpaths" then .val (.arr uu)
              else .err (.funcTypeError name (.int y)) := by
          simp only [arrayCase, if_neg hA, if_pos hB]
        rw [hs] at h
        split_ifs at h
      · by_cases hC : y < 0
        · have hs : arrayCase maxLen name f (.arr uu) y last next
              = arrayStep maxLen f uu uu.length (uu.length + y) last next := by
            simp only [arrayCase, if_neg hA, if_neg hB, if_pos hC]
          rw [hs] at h
          rcases arrayStep_panic_cases f uu _ _ last next info (by omega) h with ⟨hm, _⟩ | hc
          · omega
          · exact Or.inr hc
        · have hs : arrayCase maxLen name f (.arr uu) y last next
              = arrayStep maxLen f uu uu.length y last next := by
            simp only [arrayCase, if_neg hA, if_neg hB, if_neg hC]
          rw [hs] at h
          rcases arrayStep_panic_cases f uu _ _ last next info (by omega) h with ⟨hm, _⟩ | hc
          · omega
          · exact Or.inr hc
  cases u with
  | null => exact key [] h
  | arr uu => exact key uu h
  | _ => simp [arrayCase] at h

/-- The string arm panics only where the rest of the walk panics. -/
theorem objectCase_panic_cases (name : String) (f : Value → Value) (u : Value) (k : String)
    (last : Bool) (next : Value → Result) (info : String)
    (h : objectCase name f u k last next = .panic info) :
    ∃ c, next c = .panic info := by
  have key : ∀ uu : List (String × Value),
      objectStep name f uu k last next = .panic info → ∃ c, next c = .panic info := by
    intro uu h
    simp only [objectStep] at h
    split_ifs at h with h1 h2
    cases hr : next (mapIndex uu k) with
    | val w => rw [hr] at h; simp at h
    | err e => rw [hr] at h; simp at h
    | panic i2 =>
      rw [hr] at h
      injection h with h
      subst h
      exact ⟨_, hr⟩
  simp only [objectCase] at h
  split_ifs at h with h0
  cases u with
  | null => exact key [] h
  | obj uu => exact key uu h
  | _ => simp at h

/-- The loop of `updatePaths` panics only in `setpath` mode, only in `make`, and only for a
path with an index beyond the limits of growth: no `uu[y]` is out of range. -/
theorem updateLoop_panic_cases {maxLen : Nat} (name : String) (f : Value → Value)
    (info : String) :
    ∀ (keys : List Value) (u : Value), updateLoop maxLen name f u keys = .panic info →
      name = "setpath" ∧ ¬ pathFits maxLen keys ∧ info = "makeslice: len out of range" := by
  intro keys
  induction keys with
  | nil => intro u h; cases h
  | cons x rest ih =>
    intro u h
    have up : ∀ c, updateLoop maxLen name f c rest = .panic info →
        name = "setpath" ∧ ¬ pathFits maxLen (x :: rest) ∧
          info = "makeslice: len out of range" := by
      intro c hc
      obtain ⟨h1, h2, h3⟩ := ih c hc
      exact ⟨h1, fun hf => h2 (fun k hk => hf k (List.mem_cons_of_mem _ hk)), h3⟩
    cases x with
    | str k =>
      rw [updateLoop_str] at h
      obtain ⟨c, hc⟩ := objectCase_panic_cases name f u k _ _ info h
      exact up c hc
    | int n =>
      rw [updateLoop_int] at h
      rcases arrayCase_panic_cases name f u n _ _ info h with ⟨h1, h2, h3⟩ | ⟨c, hc⟩
      · exact ⟨h1, fun hf => h2 (hf _ (List.mem_cons_self _ _) n rfl), h3⟩
      · exact up c hc
    | float b =>
      rw [updateLoop_float] at h
      rcases arrayCase_panic_cases name f u (f64ToInt b) _ _ info h with ⟨h1, h2, h3⟩ | ⟨c, hc⟩
      · exact ⟨h1, fun hf => h2 (hf _ (List.mem_cons_self _ _) _ rfl), h3⟩
      · exact up c hc
    | null => cases u <;> cases h
    | bool b => cases u <;> cases h
    | arr xs => cases u <;> cases h
    | obj o => cases u <;> cases h
    | hole => cases u <;> cases h

/-- The function `updatePaths` panics only in `setpath` mode, only in `make`, and only for a
path with an index beyond the limits of growth. -/
theorem updatePaths_panic_cases {maxLen : Nat} (name : String) (v p : Value)
    (f : Value → Value) (info : String)
    (h : updatePaths maxLen name v p f = .panic info) :
    name = "setpath" ∧ info = "makeslice: len out of range" ∧
      ∃ keys, p = .arr keys ∧ ¬ pathFits maxLen keys := by
  cases p with
  | arr keys =>
    simp only [updatePaths] at h
    split_ifs at h
    obtain ⟨h1, h2, h3⟩ := updateLoop_panic_cases name f info keys v h
    exact ⟨h1, h3, keys, rfl, h2⟩
  | _ => cases h

/-- C1, as stated, fails: writing `1` at the index 9223372036854775807 (the largest `int`)
of `null` is not an error, yet it is not a value from which `getpath` could read `1`: the
length `y + 1` wraps around and `make` panics.  Here the limit of `make` is the largest
`int` itself. -/
theorem getpath_setpath_fails :
    (funcSetpath 9223372036854775807 .null (.arr [.int 9223372036854775807]) (.int 1)).isErr
      = false ∧
    funcSetpath 9223372036854775807 .null (.arr [.int 9223372036854775807]) (.int 1)
      = .panic "makeslice: len out of range" ∧
    ¬ ∃ r1, funcSetpath 9223372036854775807 .null (.arr [.int 9223372036854775807]) (.int 1)
      = .val r1 ∧
      funcGetpath (fun _ _ => 0) r1 (.arr [.int 9223372036854775807]) = .val (.int 1) := by
  have h : funcSetpath 9223372036854775807 .null (.arr [.int 9223372036854775807]) (.int 1)
      = .panic "makeslice: len out of range" := rfl
  refine ⟨rfl, h, ?_⟩
  rintro ⟨r1, h1, _⟩
  rw [h] at h1
  cases h1

/-- C1, amended: for every root `r`, every path `p` whose components are strings or
numbers of the Go types, and every value `x`: whenever `funcSetpath r p x` returns a value,
`funcGetpath` with the same path reads `x` from it; and when growing an array up to each
numeric component stays within the limits (`y + 1` is an `int` that `make` accepts) and
`funcSetpath r p x` is not an error, it does return a value. -/
theorem getpath_setpath {maxLen : Nat} (compare : Value → Value → Int) (r x : Value)
    (p : List Value) (hp : ∀ k ∈ p, pathKey k = true) (hi : goInts p) :
    (∀ r1, funcSetpath maxLen r (.arr p) x = .val r1 →
      funcGetpath compare r1 (.arr p) = .val x) ∧
    (pathFits maxLen p → (funcSetpath maxLen r (.arr p) x).isErr = false →
      ∃ r1, funcSetpath maxLen r (.arr p) x = .val r1 ∧
        funcGetpath compare r1 (.arr p) = .val x) := by
  have part1 : ∀ r1, funcSetpath maxLen r (.arr p) x = .val r1 →
      funcGetpath compare r1 (.arr p) = .val x := by
    intro r1 h
    cases p with
    | nil =>
      have hs : funcSetpath maxLen r (.arr []) x = .val x := rfl
      rw [hs] at h
      injection h with h
      subst h
      rfl
    | cons key rest =>
      have hs : funcSetpath maxLen r (.arr (key :: rest)) x
          = updateLoop maxLen "setpath" (fun _ => x) r (key :: rest) := rfl
      rw [hs] at h
      exact setpath_getpath_loop compare r1 (.arr (key :: rest)) x (key :: rest) hp hi
        (by simp) r r1 h
  refine ⟨part1, ?_⟩
  intro hfit hne
  cases hr : funcSetpath maxLen r (.arr p) x with
  | val r1 => exact ⟨r1, rfl, part1 r1 hr⟩
  | err e => rw [hr] at hne; simp [Result.isErr] at hne
  | panic info =>
    obtain ⟨_, _, keys, hk, hnf⟩ := updatePaths_panic_cases "setpath" (clone r) (.arr p)
      (fun _ => x) info hr
    injection hk with hk
    subst hk
    exact absurd hfit hnf

/-- C1 at a concrete input: writing through an object with the path `["a", 2, -1]`, with
1000 as the limit of `make`. -/
theorem getpath_setpath_witness :
    (∀ k ∈ [Value.str "a", Value.int 2, Value.int (-1)], pathKey k = true) ∧
    goInts [Value.str "a", Value.int 2, Value.int (-1)] ∧
    pathFits 1000 [Value.str "a", Value.int 2, Value.int (-1)] ∧
    (funcSetpath 1000 (.obj [("a", .arr [.null, .null, .arr [.int 1, .int 2]])])
      (.arr [.str "a", .int 2, .int (-1)]) (.int 7)).isErr = false ∧
    ∃ r1, funcSetpath 1000 (.obj [("a", .arr [.null, .null, .arr [.int 1, .int 2]])])
        (.arr [.str "a", .int 2, .int (-1)]) (.int 7) = .val r1 ∧
      funcGetpath (fun _ _ => 0) r1 (.arr [.str "a", .int 2, .int (-1)]) = .val (.int 7) :=
  have hi : goInts [Value.str "a", Value.int 2, Value.int (-1)] := by
    intro n hn
    simp at hn
    rcases hn with h | h <;> subst h <;> decide
  have hf : pathFits 1000 [Value.str "a", Value.int 2, Value.int (-1)] := by
    intro k hk y hy
    simp only [List.mem_cons, List.mem_singleton, List.mem_nil_iff, or_false] at hk
    rcases hk with h | h | h <;> subst h <;> simp only [toInt, Option.some.injEq] at hy
    · cases hy
    · subst hy; exact ⟨by decide, by decide⟩
    · subst hy; exact ⟨by decide, by decide⟩
  ⟨by simp [pathKey], hi, hf, rfl,
    (getpath_setpath (fun _ _ => 0) _ (.int 7) [.str "a", .int 2, .int (-1)]
      (by simp [pathKey]) hi).2 hf rfl⟩

mutual
theorem deleteEmpty_noHole : ∀ v : Value, hasHole v = false → deleteEmpty v = v
  | .hole, h => by simp [hasHole] at h
  | .arr xs, h => by
    simp only [hasHole] at h
    simp only [deleteEmpty, deleteEmptyList_noHole xs h]
  | .obj kvs, h => by
    simp only [hasHole] at h
    simp only [deleteEmpty, deleteEmptyFields_noHole kvs h]
  | .null, _ => rfl
  | .bool _, _ => rfl
  | .int _, _ => rfl
  | .float _, _ => rfl
  | .str _, _ => rfl

theorem deleteEmptyList_noHole : ∀ xs : List Value, hasHoleList xs = false →
    deleteEmptyList xs = xs
  | [], _ => rfl
  | x :: xs, h => by
    simp only [hasHoleList, Bool.or_eq_false_iff] at h
    have h1 := deleteEmpty_noHole x h.1
    have h2 := deleteEmptyList_noHole xs h.2
    cases x with
    | hole => simp [hasHole] at h
    | _ => simp only [deleteEmptyList, h1, h2]

theorem deleteEmptyFields_noHole : ∀ kvs : List (String × Value), hasHoleFields kvs = false →
    deleteEmptyFields kvs = kvs
  | [], _ => rfl
  | (k, x) :: kvs, h => by
    simp only [hasHoleFields, Bool.or_eq_false_iff] at h
    have h1 := deleteEmpty_noHole x h.1
    have h2 := deleteEmptyFields_noHole kvs h.2
    cases x with
    | hole => simp [hasHole] at h
    | _ => simp only [deleteEmptyFields, h1, h2]
end

theorem list_set_of_getElem? (l : List Value) (n : Nat) (v : Value) (h : l[n]? = some v) :
    l.set n v = l := by
  induction l generalizing n with
  | nil => rfl
  | cons a l ih =>
    cases n with
    | zero =>
      simp only [List.getElem?_cons_zero, Option.some.injEq] at h
      simp [h]
    | succ n =>
      simp only [List.getElem?_cons_succ] at h
      simp [ih n h]

theorem getpathLoop_null (compare : Value → Value → Int) (root p : Value) :
    ∀ q : List Value, (∀ k ∈ q, pathKey k = true) →
      getpathLoop compare root p .null q = .val .null := by
  intro q
  induction q with
  | nil => intro _; rfl
  | cons key q ih =>
    intro hq
    have hkey := hq key (List.mem_cons_self _ _)
    have ih2 := ih (fun k hk => hq k (List.mem_cons_of_mem _ hk))
    cases key with
    | str k => simpa [getpathLoop, funcIndex] using ih2
    | int n => simpa [getpathLoop, funcIndex, funcIndexNumber] using ih2
    | float b => simpa [getpathLoop, funcIndex, funcIndexNumber] using ih2
    | _ => simp [pathKey] at hkey

theorem absentAt_not_null (c : Value) : ¬ absentAt .null c := by
  rintro (⟨o, k, h, _⟩ | ⟨a, i, h, _⟩) <;> cases h

/-- The single-index read, in or out of range. -/
theorem funcIndexSlice_index_cases (a : List Value) (y : Int) :
    (funcIndexSlice none none (some y) a = .val .null ∧
      ((a.length : Int) ≤ y ∨ y < -(a.length : Int))) ∨
    (∃ w, funcIndexSlice none none (some y) a = .val w ∧
      ((-(a.length : Int) ≤ y ∧ y < 0 ∧ a[((a.length : Int) + y).toNat]? = some w) ∨
       (0 ≤ y ∧ y < a.length ∧ a[y.toNat]? = some w))) := by
  obtain ⟨h1, h2, h3⟩ := funcIndexSlice_index a y
  by_cases hneg : -(a.length : Int) ≤ y ∧ y < 0
  · obtain ⟨hlt, h⟩ := h1 hneg
    exact Or.inr ⟨_, h, Or.inl ⟨hneg.1, hneg.2, List.getElem?_eq_getElem hlt⟩⟩
  · by_cases hpos : 0 ≤ y ∧ y < a.length
    · obtain ⟨hlt, h⟩ := h2 hpos
      exact Or.inr ⟨_, h, Or.inr ⟨hpos.1, hpos.2, List.getElem?_eq_getElem hlt⟩⟩
    · have ho : y < -(a.length : Int) ∨ (a.length : Int) ≤ y := by omega
      exact Or.inl ⟨h3 ho, ho.symm⟩

/-- In `delpaths` mode the numeric step on an array, followed by a walk that leaves the
element it enters unchanged, leaves the array unchanged. -/
theorem arrayCase_delpaths_noop {maxLen : Nat} (f : Value → Value) (uu : List Value) (y : Int) (last : Bool)
    (next : Value → Result) (v1 : Value)
    (hread : funcIndexSlice none none (some y) uu = .val v1)
    (hnext : v1 ≠ .null → last = false ∧ next v1 = .val v1)
    (hlast : v1 = .null → (uu.length : Int) ≤ y ∨ y < -(uu.length : Int)) :
    arrayCase maxLen "delpaths" f (.arr uu) y last next = .val (.arr uu) := by
  have hl : (0 : Int) ≤ uu.length := Int.natCast_nonneg _
  have hstep : ∀ pos : Int, 0 ≤ pos → pos < uu.length → uu[pos.toNat]? = some v1 →
      v1 ≠ .null → arrayStep maxLen f uu uu.length pos last next = .val (.arr uu) := by
    intro pos hp0 hp1 hget hv
    obtain ⟨c, hc1, hc2⟩ := @arrayStep_inrange maxLen f uu uu.length pos last next hl hp0 hp1
      (Or.inl (le_refl _))
    obtain ⟨hl2, hn⟩ := hnext hv
    simp only [Int.toNat_ofNat, makeCopy_self] at hc1 hc2
    rw [hget] at hc1
    injection hc1 with hc1
    subst hc1
    rw [hc2, hl2, hn]
    simp [list_set_of_getElem? uu pos.toNat v1 hget]
  have hout : (uu.length : Int) ≤ y ∨ y < -(uu.length : Int) →
      arrayCase maxLen "delpaths" f (.arr uu) y last next = .val (.arr uu) := by
    intro ho
    by_cases hB : y < -(uu.length : Int)
    · simp [arrayCase, delpaths_ne_setpath, hB]
    · have hA : (uu.length : Int) ≤ y := by omega
      have hC : ¬ (y < 0) := by omega
      have hlen : ((makeCopy uu.length uu).length : Int) ≤ y := by
        rw [makeCopy_self]; exact hA
      have h0 : ¬ ((uu.length : Int) < 0 ∨
          ((uu.length : Int) < (uu.length : Int) ∧ (maxLen : Int) < (uu.length : Int))) := by
        omega
      simp only [arrayCase, delpaths_ne_setpath, and_false, if_false, if_neg hB, if_neg hC,
        arrayStep, if_neg h0, Int.toNat_ofNat, if_pos hlen, makeCopy_self, if_pos hA]
  rcases funcIndexSlice_index_cases uu y with ⟨_, ho⟩ | ⟨w, hw, hcase⟩
  · exact hout ho
  · rw [hread] at hw
    injection hw with hw
    subst hw
    by_cases hv : v1 = .null
    · exact hout (hlast hv)
    · rcases hcase with ⟨h1, h2, h3⟩ | ⟨h1, h2, h3⟩
      · have hA : ¬ ((uu.length : Int) ≤ y) := by omega
        have hB : ¬ (y < -(uu.length : Int)) := by omega
        simp only [arrayCase, delpaths_ne_setpath, and_false, if_false, if_neg hB, if_pos h2]
        exact hstep _ (by omega) (by omega) h3 hv
      · have hB : ¬ (y < -(uu.length : Int)) := by omega
        have hC : ¬ (y < 0) := by omega
        simp only [arrayCase, delpaths_ne_setpath, and_false, if_false, if_neg hB, if_neg hC]
        exact hstep _ h1 h2 h3 hv

theorem delpaths_loop_noop {maxLen : Nat} (compare : Value → Value → Int) (root p : Value)
    (f : Value → Value) (c target : Value) (rest : List Value) (habs : absentAt target c) :
    ∀ (q : List Value) (u : Value), (∀ k ∈ q, pathKey k = true) →
      getpathLoop compare root p u q = .val target →
      updateLoop maxLen "delpaths" f u (q ++ c :: rest) = .val u := by
  intro q
  induction q with
  | nil =>
    intro u _ hget
    have hu : u = target := by
      simp only [getpathLoop] at hget
      injection hget
    subst hu
    rcases habs with ⟨o, k, h1, h2, h3⟩ | ⟨a, i, h1, h2, h3⟩
    · subst h1 h2
      simp [updateLoop_str, objectCase, objectStep, Value.isNull, h3]
    · subst h1 h2
      rw [List.nil_append, updateLoop_int]
      apply arrayCase_delpaths_noop f a i _ _ .null
      · obtain ⟨_, _, h⟩ := funcIndexSlice_index a i
        exact h (by omega)
      · intro h; exact absurd rfl h
      · intro _; exact h3
  | cons key q ih =>
    intro u hq hget
    have hkey := hq key (List.mem_cons_self _ _)
    have hq2 : ∀ k ∈ q, pathKey k = true := fun k hk => hq k (List.mem_cons_of_mem _ hk)
    have hne : (q ++ c :: rest).isEmpty = false := by
      cases q <;> rfl
    have harr : ∀ (uu : List Value) (y : Int),
        (match funcIndexSlice none none (some y) uu with
          | .val v1 => getpathLoop compare root p v1 q
          | .err _ => .err (.getpathError root p)
          | .panic info => .panic info) = .val target →
        arrayCase maxLen "delpaths" f (.arr uu) y (q ++ c :: rest).isEmpty
          (fun d => updateLoop maxLen "delpaths" f d (q ++ c :: rest)) = .val (.arr uu) := by
      intro uu y hg
      cases hr : funcIndexSlice none none (some y) uu with
      | val v1 =>
        rw [hr] at hg
        apply arrayCase_delpaths_noop f uu y _ _ v1 hr
        · intro _
          exact ⟨hne, ih v1 hq2 hg⟩
        · intro hv
          subst hv
          simp only [] at hg
          rw [getpathLoop_null compare root p q hq2] at hg
          injection hg with hg
          subst hg
          exact absurd habs (absentAt_not_null c)
      | err e => rw [hr] at hg; cases hg
      | panic info => rw [hr] at hg; cases hg
    cases u with
    | null =>
      have h0 : getpathLoop compare root p .null (key :: q) = .val .null :=
        getpathLoop_null compare root p (key :: q) hq
      rw [h0] at hget
      injection hget with hget
      subst hget
      exact absurd habs (absentAt_not_null c)
    | obj uu =>
      cases key with
      | str k =>
        rw [List.cons_append, updateLoop_str]
        simp only [getpathLoop, funcIndex] at hget
        cases hm : mapGet uu k with
        | none => simp [objectCase, objectStep, Value.isNull, hm]
        | some v1 =>
          have hmi : mapIndex uu k = v1 := by simp [mapIndex, hm]
          rw [hmi] at hget
          have hrec := ih v1 hq2 hget
          simp only [objectCase, objectStep, Value.isNull, hm, hne, hmi, hrec,
            mapSet_of_mapGet uu k v1 hm]
          simp
      | int n => simp [getpathLoop, funcIndex, funcIndexNumber] at hget
      | float b => simp [getpathLoop, funcIndex, funcIndexNumber] at hget
      | _ => simp [pathKey] at hkey
    | arr uu =>
      cases key with
      | str k => simp [getpathLoop, funcIndex] at hget
      | int n =>
        rw [List.cons_append, updateLoop_int]
        exact harr uu n (by simpa [getpathLoop, funcIndex, funcIndexNumber] using hget)
      | float b =>
        rw [List.cons_append, updateLoop_float]
        exact harr uu (f64ToInt b)
          (by simpa [getpathLoop, funcIndex, funcIndexNumber] using hget)
      | _ => simp [pathKey] at hkey
    | _ => simp [getpathLoop] at hget

/-- C9: deleting a path that does not exist is a no-op.  For a root `r` without hole
markers and a path `q ++ [c] ++ rest` whose prefix `q` (strings and numbers) leads by
`funcGetpath` to an object that lacks the key `c`, or to an array for which the index `c`
is out of range, `funcDelpaths` returns `r`. -/
theorem delpaths_absent_noop {maxLen : Nat} (compare : Value → Value → Int) (r c target : Value)
    (q rest : List Value) (hr : hasHole r = false) (hq : ∀ k ∈ q, pathKey k = true)
    (hget : funcGetpath compare r (.arr q) = .val target) (habs : absentAt target c) :
    funcDelpaths maxLen r (.arr [.arr (q ++ c :: rest)]) = .val r := by
  have hloop := @delpaths_loop_noop maxLen compare r (.arr q) (fun _ => Value.hole) c target rest habs
    q r hq hget
  have hne : (q ++ c :: rest).isEmpty = false := by
    cases q <;> rfl
  simp only [funcDelpaths, delpathsLoop, updatePaths, clone, hne, hloop]
  simp [deleteEmpty_noHole r hr]

/-- C9 at concrete inputs: the example of the specification, and an index out of range
below an object key. -/
theorem delpaths_absent_noop_witness :
    (hasHole (.obj [("a", .int 1)]) = false ∧
      (∀ k ∈ ([] : List Value), pathKey k = true) ∧
      funcGetpath (fun _ _ => 0) (.obj [("a", .int 1)]) (.arr []) = .val (.obj [("a", .int 1)]) ∧
      absentAt (.obj [("a", .int 1)]) (.str "b")) ∧
    funcDelpaths 1000 (.obj [("a", .int 1)]) (.arr [.arr ([] ++ Value.str "b" :: [])])
      = .val (.obj [("a", .int 1)]) ∧
    funcDelpaths 1000 (.obj [("a", .arr [.int 1])]) (.arr [.arr [.str "a", .int 3, .str "z"]])
      = .val (.obj [("a", .arr [.int 1])]) :=
  ⟨⟨rfl, by simp, rfl, Or.inl ⟨_, _, rfl, rfl, rfl⟩⟩,
    delpaths_absent_noop (fun _ _ => 0) (.obj [("a", .int 1)]) (.str "b")
      (.obj [("a", .int 1)]) [] [] rfl (by simp) rfl (Or.inl ⟨_, _, rfl, rfl, rfl⟩),
    rfl⟩

/-- C10 at the failing inputs: in `delpaths` mode a numeric component on a `null` subtree
is not short-circuited; the `null` is replaced by an empty array, at the root and under an
object key, while a string component on `null` leaves it alone. -/
theorem delpaths_null_numeric_materializes {maxLen : Nat} :
    funcDelpaths maxLen .null (.arr [.arr [.int 0]]) = .val (.arr []) ∧
    funcDelpaths maxLen (.obj [("k", .null)]) (.arr [.arr [.str "k", .int 0]])
      = .val (.obj [("k", .arr [])]) ∧
    updatePaths maxLen "delpaths" .null (.arr [.int 0]) (fun _ => Value.hole) = .val (.arr []) ∧
    funcDelpaths maxLen .null (.arr [.arr [.str "a"]]) = .val .null :=
  ⟨rfl, rfl, rfl, rfl⟩

/-- In `delpaths` mode a path that starts with a string leaves a `null` root alone. -/
theorem delpaths_null_string {maxLen : Nat} (k : String) (rest : List Value) :
    funcDelpaths maxLen .null (.arr [.arr (.str k :: rest)]) = .val .null := by
  simp [funcDelpaths, delpathsLoop, updatePaths, clone, updateLoop_str, objectCase,
    Value.isNull, deleteEmpty]

/-- In `delpaths` mode a path that starts with an integer turns a `null` root into the
empty array. -/
theorem delpaths_null_int {maxLen : Nat} (i : Int) (rest : List Value) :
    funcDelpaths maxLen .null (.arr [.arr (.int i :: rest)]) = .val (.arr []) := by
  have h : arrayCase maxLen "delpaths" (fun _ => Value.hole) .null i rest.isEmpty
      (fun d => updateLoop maxLen "delpaths" (fun _ => Value.hole) d rest) = .val (.arr []) := by
    have := @arrayCase_delpaths_noop maxLen (fun _ => Value.hole) [] i rest.isEmpty
      (fun d => updateLoop maxLen "delpaths" (fun _ => Value.hole) d rest) .null
      (by
        obtain ⟨_, _, h⟩ := funcIndexSlice_index [] i
        exact h (by simp; omega))
      (fun h => absurd rfl h) (fun _ => by simp; omega)
    exact this
  simp [funcDelpaths, delpathsLoop, updatePaths, clone, updateLoop_int, h, deleteEmpty,
    deleteEmptyList]

/-! ## Theorems: type mismatch, getpath, keys, partition -/

/-- C11: a type-mismatched first step surfaces as an error value carrying the root: for a
root that is neither `null` nor an object and a path that starts with a string,
`funcSetpath` returns `ExpectedObjectError` of the root; for a root that is neither `null`
nor an array and a path that starts with a number, it returns `ExpectedArrayError` of the
root. -/
theorem funcSetpath_type_mismatch {maxLen : Nat} (v x : Value) (k : String) (c : Value) (rest : List Value)
    (hn : v ≠ .null) (hc : isNumber c = true) :
    ((∀ o, v ≠ .obj o) →
      funcSetpath maxLen v (.arr (.str k :: rest)) x = .err (.expectedObjectError v)) ∧
    ((∀ a, v ≠ .arr a) →
      funcSetpath maxLen v (.arr (c :: rest)) x = .err (.expectedArrayError v)) := by
  constructor
  · intro ho
    cases v with
    | null => exact absurd rfl hn
    | obj o => exact absurd rfl (ho o)
    | _ => rfl
  · intro ha
    cases c with
    | int n =>
      cases v with
      | null => exact absurd rfl hn
      | arr a => exact absurd rfl (ha a)
      | _ => rfl
    | float b =>
      cases v with
      | null => exact absurd rfl hn
      | arr a => exact absurd rfl (ha a)
      | _ => rfl
    | _ => simp [isNumber] at hc

/-- C11 on the example of the specification: `setpath(5, ["a"], 1)`, and the same root
under a numeric first component. -/
theorem funcSetpath_type_mismatch_witness :
    (Value.int 5 ≠ .null ∧ isNumber (.int 0) = true) ∧
    funcSetpath 1000 (.int 5) (.arr (.str "a" :: [])) (.int 1)
      = .err (.expectedObjectError (.int 5)) ∧
    funcSetpath 1000 (.int 5) (.arr (.int 0 :: [])) (.int 1)
      = .err (.expectedArrayError (.int 5)) :=
  ⟨⟨by simp, rfl⟩,
    (funcSetpath_type_mismatch (.int 5) (.int 1) "a" (.int 0) [] (by simp) rfl).1
      (fun o => by simp),
    (funcSetpath_type_mismatch (.int 5) (.int 1) "a" (.int 0) [] (by simp) rfl).2
      (fun a => by simp)⟩

/-- The single-index read never panics. -/
theorem funcIndexSlice_index_val (a : List Value) (y : Int) :
    ∃ w, funcIndexSlice none none (some y) a = .val w := by
  rcases funcIndexSlice_index_cases a y with ⟨h, _⟩ | ⟨w, h, _⟩
  · exact ⟨_, h⟩
  · exact ⟨w, h⟩

/-- The subsequence search returns a value for every selector. -/
theorem funcIndex_array_array_val (compare : Value → Value → Int) (v x : List Value) :
    ∃ w, funcIndex compare (.arr v) (.arr x) = .val w := by
  by_cases hx : x = []
  · subst hx
    exact ⟨_, rfl⟩
  · have hpos : 0 < x.length := List.length_pos.mpr hx
    obtain ⟨is, h, _⟩ := indexLoop_spec compare v x hpos v.length 0 [] (by omega)
    refine ⟨.arr ([] ++ is.map (fun (k : Nat) => Value.int (k : Int))), ?_⟩
    simp only [funcIndex, if_neg (Nat.pos_iff_ne_zero.mp hpos)]
    exact h


/-- On an object, an array or `null`, `funcIndex` returns a value or an error value. -/
theorem funcIndex_container_noPanic (compare : Value → Value → Int) (v x : Value)
    (hv : (∃ o, v = .obj o) ∨ (∃ a, v = .arr a) ∨ v = .null) :
    (funcIndex compare v x).isPanic = false := by
  rcases hv with ⟨o, rfl⟩ | ⟨a, rfl⟩ | rfl
  · cases x <;> rfl
  · cases x with
    | int n =>
      obtain ⟨w, h⟩ := funcIndexSlice_index_val a n
      simp [funcIndex, funcIndexNumber, h, Result.isPanic]
    | float b =>
      obtain ⟨w, h⟩ := funcIndexSlice_index_val a (f64ToInt b)
      simp [funcIndex, funcIndexNumber, h, Result.isPanic]
    | arr xs =>
      obtain ⟨w, h⟩ := funcIndex_array_array_val compare a xs
      rw [h]; rfl
    | _ => rfl
  · cases x <;> rfl

/-- The loop of `funcGetpath` ends in a value or in `GetpathError` of the root and path. -/
theorem getpathLoop_result (compare : Value → Value → Int) (root p : Value) :
    ∀ (keys : List Value) (v : Value),
      (∃ w, getpathLoop compare root p v keys = .val w) ∨
      getpathLoop compare root p v keys = .err (.getpathError root p) := by
  intro keys
  induction keys with
  | nil => intro v; exact Or.inl ⟨v, rfl⟩
  | cons x rest ih =>
    intro v
    have hc : ∀ v : Value, ((∃ o, v = .obj o) ∨ (∃ a, v = .arr a) ∨ v = .null) →
        ((∃ w, (match funcIndex compare v x with
            | .val v1 => getpathLoop compare root p v1 rest
            | .err _ => .err (.getpathError root p)
            | .panic info => .panic info) = .val w) ∨
          (match funcIndex compare v x with
            | .val v1 => getpathLoop compare root p v1 rest
            | .err _ => .err (.getpathError root p)
            | .panic info => .panic info) = .err (.getpathError root p)) := by
      intro v hv
      have hp := funcIndex_container_noPanic compare v x hv
      cases hf : funcIndex compare v x with
      | val v1 => exact ih v1
      | err e => exact Or.inr rfl
      | panic info => rw [hf] at hp; simp [Result.isPanic] at hp
    cases v with
    | obj o => exact hc _ (Or.inl ⟨o, rfl⟩)
    | arr a => exact hc _ (Or.inr (Or.inl ⟨a, rfl⟩))
    | null => exact hc _ (Or.inr (Or.inr rfl))
    | _ => exact Or.inr rfl

/-- A walk that reaches `s` along `q` continues from `s` on the rest of a longer path. -/
theorem getpathLoop_append (compare : Value → Value → Int) (root p root2 p2 s : Value)
    (r : List Value) :
    ∀ (q : List Value) (u : Value), getpathLoop compare root p u q = .val s →
      getpathLoop compare root2 p2 u (q ++ r) = getpathLoop compare root2 p2 s r := by
  intro q
  induction q with
  | nil =>
    intro u h
    simp only [getpathLoop] at h
    injection h with h
    subst h
    rfl
  | cons x q ih =>
    intro u h
    have hc : ∀ u : Value,
        (match funcIndex compare u x with
          | .val v1 => getpathLoop compare root p v1 q
          | .err _ => .err (.getpathError root p)
          | .panic info => .panic info) = .val s →
        (match funcIndex compare u x with
          | .val v1 => getpathLoop compare root2 p2 v1 (q ++ r)
          | .err _ => .err (.getpathError root2 p2)
          | .panic info => .panic info) = getpathLoop compare root2 p2 s r := by
      intro u h
      cases hf : funcIndex compare u x with
      | val v1 =>
        rw [hf] at h
        exact ih v1 h
      | err e => rw [hf] at h; cases h
      | panic info => rw [hf] at h; cases h
    cases u with
    | obj o => exact hc _ h
    | arr a => exact hc _ h
    | null => exact hc _ h
    | _ => simp [getpathLoop] at h

/-- C13: for every root `v` and path array `p`, `funcGetpath` returns a value or exactly
`GetpathError` carrying `v` and `p` (no raw index error, no panic).  When the walk stands
on a non-null scalar with a component left, the call fails with that error, even where
`funcIndex` alone succeeds, as for `getpath("abc", [0])`; the empty path returns `v`. -/
theorem funcGetpath_result (compare : Value → Value → Int) (v : Value) (p : List Value) :
    ((∃ w, funcGetpath compare v (.arr p) = .val w) ∨
      funcGetpath compare v (.arr p) = .err (.getpathError v (.arr p))) ∧
    (∀ q x rest s, p = q ++ x :: rest → funcGetpath compare v (.arr q) = .val s →
      isScalar s = true →
      funcGetpath compare v (.arr p) = .err (.getpathError v (.arr p))) ∧
    funcGetpath compare v (.arr []) = .val v ∧
    funcGetpath compare (.str "abc") (.arr [.int 0])
      = .err (.getpathError (.str "abc") (.arr [.int 0])) ∧
    funcIndex compare (.str "abc") (.int 0) = .val (.str "a") := by
  refine ⟨getpathLoop_result compare v (.arr p) p v, ?_, rfl, rfl, rfl⟩
  intro q x rest s hp hq hs
  subst hp
  have h := getpathLoop_append compare v (.arr q) v (.arr (q ++ x :: rest)) s (x :: rest) q v hq
  show getpathLoop compare v (.arr (q ++ x :: rest)) v (q ++ x :: rest) = _
  rw [h]
  cases s with
  | bool b => rfl
  | int n => rfl
  | float b => rfl
  | str w => rfl
  | _ => simp [isScalar] at hs

theorem mem_keys_iff_mapGet (m : List (String × Value)) (k : String) :
    k ∈ m.map Prod.fst ↔ (mapGet m k).isSome = true := by
  induction m with
  | nil => simp [mapGet]
  | cons kv m ih =>
    obtain ⟨k2, w⟩ := kv
    by_cases h : k2 = k
    · simp [mapGet, h]
    · have h2 : ¬ (k = k2) := fun e => h e.symm
      simp [mapGet, h, h2, ih]

/-- C14: for an object, `funcKeys` returns its keys in strictly ascending order, each key
of the object exactly once and nothing else; for an array of length `n` it returns
`[0, ..., n-1]`; for every other input it returns `TypeError("keys", input)`. -/
theorem funcKeys_spec (v : Value) :
    (∀ m, ∃ ks : List String,
      funcKeys (.obj m) = .val (.arr (ks.map Value.str)) ∧
      ks.Sorted (· < ·) ∧ ks.Nodup ∧
      ∀ k, k ∈ ks ↔ (mapGet m k).isSome = true) ∧
    (∀ a : List Value,
      funcKeys (.arr a)
        = .val (.arr ((List.range a.length).map (fun (i : Nat) => Value.int (i : Int))))) ∧
    ((∀ m, v ≠ .obj m) → (∀ a, v ≠ .arr a) → funcKeys v = .err (.funcTypeError "keys" v)) := by
  refine ⟨fun m => ?_, fun a => rfl, fun ho ha => ?_⟩
  · have hperm := List.perm_insertionSort (· ≤ ·) (mapKeys m)
    have hnd : (sortStrings (mapKeys m)).Nodup :=
      (hperm.nodup_iff).mpr (List.nodup_dedup _)
    have hs : (sortStrings (mapKeys m)).Sorted (· ≤ ·) :=
      List.sorted_insertionSort (· ≤ ·) (mapKeys m)
    refine ⟨sortStrings (mapKeys m), rfl, hs.lt_of_le hnd, hnd, fun k => ?_⟩
    rw [← mem_keys_iff_mapGet]
    unfold sortStrings at *
    rw [hperm.mem_iff]
    unfold mapKeys
    exact List.mem_dedup
  · cases v with
    | obj m => exact absurd rfl (ho m)
    | arr a => exact absurd rfl (ha a)
    | _ => rfl

/-- C20: a prefix slice and the matching suffix slice partition the array: for every
integer `k`, the slice with end `k` and no start, followed by the slice with start `k` and
no end, is the array. -/
theorem funcSlice_partition (a : List Value) (k : Int) :
    ∃ xs ys, funcSlice (.arr a) (.int k) .null = .val (.arr xs) ∧
      funcSlice (.arr a) .null (.int k) = .val (.arr ys) ∧ xs ++ ys = a := by
  have h1 := funcSliceCore_bounds a none (some k)
  have h2 := funcSliceCore_bounds a (some k) none
  refine ⟨_, _, h1, h2, ?_⟩
  have hr := clampBound_range a.length k (Int.natCast_nonneg _)
  simp only [subArray, Option.map_some', Option.getD_some, Option.map_none', Option.getD_none,
    Int.toNat_ofNat, Int.toNat_zero, List.drop_zero, Nat.sub_zero]
  have hlen : a.length - (clampBound a.length k).toNat
      = (a.drop (clampBound a.length k).toNat).length := by
    rw [List.length_drop]
  rw [hlen, List.take_length, List.take_append_drop]

/-! ## Theorems: no access leaves the bounds -/

/-- Every combination of bounds and index: `funcIndexSlice` returns a value. -/
theorem funcIndexSlice_val (start stop index : Option Int) (a : List Value) :
    ∃ w, funcIndexSlice start stop index a = .val w := by
  cases index with
  | some idx =>
    have h : funcIndexSlice start stop (some idx) a = funcIndexSlice none none (some idx) a := rfl
    rw [h]
    exact funcIndexSlice_index_val a idx
  | none => exact ⟨_, funcIndexSlice_slice a start stop⟩

/-- Indexing a string by a number returns a string: the panic branch is not reached. -/
theorem funcIndexNumber_str (idx : Int) (s : String) :
    ∃ t, funcIndexNumber idx (.str s) = .val (.str t) := by
  rcases funcIndexSlice_index_cases (explode s) idx with ⟨h, _⟩ | ⟨w, h, hw⟩
  · exact ⟨"", by simp [funcIndexNumber, h]⟩
  · have hmem : w ∈ explode s := by
      rcases hw with ⟨_, _, hw⟩ | ⟨_, _, hw⟩ <;> exact List.getElem?_mem hw
    obtain ⟨c, _, hc⟩ := List.mem_map.mp hmem
    subst hc
    refine ⟨String.mk [c], ?_⟩
    simp only [funcIndexNumber, h]
    have := implodeRunes_map [c]
    simp only [List.map_cons, List.map_nil] at this
    simp [implode, this]

/-- C18, as stated, fails: the path walk is not total.  `updatePaths` in `setpath` mode on
the array `[1, 2, 3]` with the path `[9223372036854775807]` (the largest `int`) panics: the
length `y + 1` wraps around to a negative number and `make` rejects it.  Here the limit of
`make` is the largest `int` itself. -/
theorem index_and_walk_in_bounds_fails :
    updatePaths 9223372036854775807 "setpath" (.arr [.int 1, .int 2, .int 3])
        (.arr [.int 9223372036854775807]) (fun c => c)
      = .panic "makeslice: len out of range" ∧
    (updatePaths 9223372036854775807 "setpath" (.arr [.int 1, .int 2, .int 3])
        (.arr [.int 9223372036854775807]) (fun c => c)).isPanic = true :=
  ⟨rfl, rfl⟩

/-- C18, amended: the index engine and the path walk stay in bounds.  For every array and
every combination of start, end and index, `funcIndexSlice` returns a value, so each
`a[i]`, `a[:i]` and `a[i:]` is within bounds; the subsequence search of `funcIndex`
returns a value, so each read `v[i+j]` is within bounds; the only panic of `updatePaths` is
the one of `make`, so each `uu[y]` has `0 ≤ y < len(uu)`; `updatePaths` does not panic at
all in a mode other than `setpath`, nor for a path whose numeric components stay within the
limits of growth (`y + 1` is an `int` that `make` accepts); and indexing a string by a
number returns a string, so the panic branch there is unreachable. -/
theorem index_and_walk_in_bounds {maxLen : Nat} (compare : Value → Value → Int)
    (a x : List Value) (start stop index : Option Int) (name : String) (v p : Value)
    (keys : List Value) (f : Value → Value) (s : String) (n : Int) (b : Nat) :
    (funcIndexSlice start stop index a).isPanic = false ∧
    (funcIndex compare (.arr a) (.arr x)).isPanic = false ∧
    onlyMakePanic (updatePaths maxLen name v p f) ∧
    (name ≠ "setpath" → (updatePaths maxLen name v p f).isPanic = false) ∧
    (pathFits maxLen keys → (updatePaths maxLen name v (.arr keys) f).isPanic = false) ∧
    (∃ t, funcIndex compare (.str s) (.int n) = .val (.str t)) ∧
    (∃ t, funcIndex compare (.str s) (.float b) = .val (.str t)) := by
  refine ⟨?_, ?_, ?_, ?_, ?_, funcIndexNumber_str n s, funcIndexNumber_str (f64ToInt b) s⟩
  · obtain ⟨w, h⟩ := funcIndexSlice_val start stop index a
    rw [h]; rfl
  · obtain ⟨w, h⟩ := funcIndex_array_array_val compare a x
    rw [h]; rfl
  · intro info h
    exact (updatePaths_panic_cases name v p f info h).2.1
  · intro hne
    cases hr : updatePaths maxLen name v p f with
    | val w => rfl
    | err e => rfl
    | panic info => exact absurd (updatePaths_panic_cases name v p f info hr).1 hne
  · intro hfit
    cases hr : updatePaths maxLen name v (.arr keys) f with
    | val w => rfl
    | err e => rfl
    | panic info =>
      obtain ⟨_, _, ks, hk, hnf⟩ := updatePaths_panic_cases name v (.arr keys) f info hr
      injection hk with hk
      subst hk
      exact absurd hfit hnf

/-- C18 at a concrete input: `setpath` on `[1, 2, 3]` with the path `[5]` grows the array
within the limit 1000 of `make` and does not panic. -/
theorem index_and_walk_in_bounds_witness :
    pathFits 1000 [Value.int 5] ∧
    (updatePaths 1000 "setpath" (.arr [.int 1, .int 2, .int 3]) (.arr [.int 5])
      (fun _ => .int 9)).isPanic = false :=
  have hf : pathFits 1000 [Value.int 5] := by
    intro k hk y hy
    simp only [List.mem_singleton] at hk
    subst hk
    simp only [toInt, Option.some.injEq] at hy
    subst hy
    exact ⟨by decide, by decide⟩
  ⟨hf, (@index_and_walk_in_bounds 1000 (fun _ _ => 0) [] [] none none none "setpath"
    (.arr [.int 1, .int 2, .int 3]) (.arr [.int 5]) [.int 5] (fun _ => .int 9) "" 0
    0).2.2.2.2.1 hf⟩

/-! ## Theorems: batches of deletions -/

mutual
theorem hasHole_deleteEmpty : ∀ v : Value, hasHole (deleteEmpty v) = false
  | .hole => rfl
  | .arr xs => by
    simp only [deleteEmpty, hasHole]
    exact hasHoleList_deleteEmptyList xs
  | .obj kvs => by
    simp only [deleteEmpty, hasHole]
    exact hasHoleFields_deleteEmptyFields kvs
  | .null => rfl
  | .bool _ => rfl
  | .int _ => rfl
  | .float _ => rfl
  | .str _ => rfl
theorem hasHoleList_deleteEmptyList : ∀ xs : List Value,
    hasHoleList (deleteEmptyList xs) = false
  | [] => rfl
  | x :: xs => by
    have h1 := hasHole_deleteEmpty x
    have h2 := hasHoleList_deleteEmptyList xs
    cases x with
    | hole => simpa only [deleteEmptyList] using h2
    | _ => simp only [deleteEmptyList, hasHoleList, h1, h2, Bool.or_self]
theorem hasHoleFields_deleteEmptyFields : ∀ kvs : List (String × Value),
    hasHoleFields (deleteEmptyFields kvs) = false
  | [] => rfl
  | (k, x) :: kvs => by
    have h1 := hasHole_deleteEmpty x
    have h2 := hasHoleFields_deleteEmptyFields kvs
    cases x with
    | hole => simpa only [deleteEmptyFields] using h2
    | _ => simp only [deleteEmptyFields, hasHoleFields, h1, h2, Bool.or_self]
end

/-- A value that `funcDelpaths` returns holds no hole marker. -/
theorem delpathsLoop_val_noHole {maxLen : Nat} :
    ∀ (paths : List Value) (v w : Value), delpathsLoop maxLen v paths = .val w → hasHole w = false := by
  intro paths
  induction paths with
  | nil =>
    intro v w h
    simp only [delpathsLoop] at h
    injection h with h
    rw [← h]
    exact hasHole_deleteEmpty v
  | cons path rest ih =>
    intro v w h
    simp only [delpathsLoop] at h
    cases hu : updatePaths maxLen "delpaths" (clone v) path (fun _ => Value.hole) with
    | val v1 => rw [hu] at h; exact ih v1 w h
    | err e => rw [hu] at h; cases h
    | panic info => rw [hu] at h; cases h

/-- C16 at the failing inputs: when a path is a prefix of a later one, the later walk steps
on the hole marker left by the earlier deletion and `funcDelpaths` returns an error value
that carries the marker. -/
theorem delpaths_hole_escapes {maxLen : Nat} :
    funcDelpaths maxLen (.obj [("a", .obj [("b", .int 1)])])
        (.arr [.arr [.str "a"], .arr [.str "a", .str "b"]])
      = .err (.expectedObjectError .hole) ∧
    funcDelpaths maxLen (.arr [.arr [.int 1], .int 2])
        (.arr [.arr [.int 0], .arr [.int 0, .int 0]])
      = .err (.expectedArrayError .hole) :=
  ⟨rfl, rfl⟩

theorem removeAt_congr (S T : List Nat) (h : ∀ n, n ∈ S ↔ n ∈ T) :
    ∀ (xs : List Value) (j : Nat), removeAt S j xs = removeAt T j xs := by
  intro xs
  induction xs with
  | nil => intro j; rfl
  | cons x xs ih =>
    intro j
    simp only [removeAt, h j, ih (j + 1)]

theorem markAt_nil : ∀ (xs : List Value) (j : Nat), markAt [] j xs = xs := by
  intro xs
  induction xs with
  | nil => intro j; rfl
  | cons x xs ih => intro j; simp [markAt, ih (j + 1)]

theorem markAt_length (S : List Nat) :
    ∀ (xs : List Value) (j : Nat), (markAt S j xs).length = xs.length := by
  intro xs
  induction xs with
  | nil => intro j; rfl
  | cons x xs ih => intro j; simp [markAt, ih (j + 1)]

theorem markAt_set (S : List Nat) :
    ∀ (xs : List Value) (j n : Nat), n < xs.length →
      (markAt S j xs).set n Value.hole = markAt ((j + n) :: S) j xs := by
  intro xs
  induction xs with
  | nil => intro j n h; simp at h
  | cons x xs ih =>
    intro j n h
    cases n with
    | zero =>
      have hm : ∀ (ys : List Value) (i : Nat), j < i → markAt (j :: S) i ys = markAt S i ys := by
        intro ys
        induction ys with
        | nil => intro i _; rfl
        | cons y ys ihy =>
          intro i hi
          have : i ≠ j := by omega
          simp [markAt, this, ihy (i + 1) (by omega)]
      simp [markAt, hm xs (j + 1) (by omega)]
    | succ n =>
      have hlt : n < xs.length := by simpa using h
      have h1 := ih (j + 1) n hlt
      have hj : j + 1 + n = j + (n + 1) := by omega
      rw [hj] at h1
      have hne : j ≠ j + (n + 1) := by omega
      simp [markAt, h1, hne]

theorem deleteEmptyList_markAt (S : List Nat) :
    ∀ (xs : List Value) (j : Nat), hasHoleList xs = false →
      deleteEmptyList (markAt S j xs) = removeAt S j xs := by
  intro xs
  induction xs with
  | nil => intro j _; rfl
  | cons x xs ih =>
    intro j h
    simp only [hasHoleList, Bool.or_eq_false_iff] at h
    have h1 := deleteEmpty_noHole x h.1
    have h2 := ih (j + 1) h.2
    by_cases hj : j ∈ S
    · simp only [markAt, removeAt, if_pos hj, deleteEmptyList, h2]
    · simp only [markAt, removeAt, if_neg hj]
      cases x with
      | hole => simp [hasHole] at h
      | _ => simp only [deleteEmptyList, h1, h2]

/-- One deletion by index: the element at the resolved position becomes the hole marker
and the length stays. -/
theorem updatePaths_delete_index {maxLen : Nat} (cur : List Value) (i : Int)
    (hi : -(cur.length : Int) ≤ i ∧ i < cur.length) :
    updatePaths maxLen "delpaths" (clone (.arr cur)) (indexPath i) (fun _ => Value.hole)
      = .val (.arr (cur.set (resolveIndex cur.length i) Value.hole)) := by
  have hl : (0 : Int) ≤ cur.length := Int.natCast_nonneg _
  have hs : updatePaths maxLen "delpaths" (clone (.arr cur)) (indexPath i) (fun _ => Value.hole)
      = arrayCase maxLen "delpaths" (fun _ => Value.hole) (.arr cur) i true
          (fun c => updateLoop maxLen "delpaths" (fun _ => Value.hole) c []) := rfl
  rw [hs]
  have hB : ¬ (i < -(cur.length : Int)) := by omega
  by_cases hC : i < 0
  · obtain ⟨c, _, hc⟩ := @arrayStep_inrange maxLen (fun _ => Value.hole) cur cur.length
      (cur.length + i) true (fun c => updateLoop maxLen "delpaths" (fun _ => Value.hole) c [])
      hl (by omega) (by omega) (Or.inl (le_refl _))
    simp only [arrayCase, delpaths_ne_setpath, and_false, if_false, if_neg hB, if_pos hC, hc,
      if_true, Int.toNat_ofNat, makeCopy_self, resolveIndex]
  · obtain ⟨c, _, hc⟩ := @arrayStep_inrange maxLen (fun _ => Value.hole) cur cur.length
      i true (fun c => updateLoop maxLen "delpaths" (fun _ => Value.hole) c [])
      hl (by omega) (by omega) (Or.inl (le_refl _))
    simp only [arrayCase, delpaths_ne_setpath, and_false, if_false, if_neg hB, if_neg hC, hc,
      if_true, Int.toNat_ofNat, makeCopy_self, resolveIndex]

theorem resolveIndex_lt (l : Nat) (i : Int) (hi : -(l : Int) ≤ i ∧ i < l) :
    resolveIndex l i < l := by
  unfold resolveIndex
  split_ifs <;> omega

/-- The loop of `funcDelpaths` over index paths, started from the array with the positions
in `T` already marked. -/
theorem delpathsLoop_marks {maxLen : Nat} (a : List Value) (ha : hasHoleList a = false) :
    ∀ (is : List Int) (T : List Nat),
      (∀ i ∈ is, -(a.length : Int) ≤ i ∧ i < a.length) →
      delpathsLoop maxLen (.arr (markAt T 0 a)) (is.map indexPath)
        = .val (.arr (removeAt (is.map (resolveIndex a.length) ++ T) 0 a)) := by
  intro is
  induction is with
  | nil =>
    intro T _
    simp only [List.map_nil, delpathsLoop, deleteEmpty, List.nil_append,
      deleteEmptyList_markAt T a 0 ha]
  | cons i is ih =>
    intro T hin
    have hi := hin i (List.mem_cons_self _ _)
    have hlen := markAt_length T a 0
    have hstep := @updatePaths_delete_index maxLen (markAt T 0 a) i (by rw [hlen]; exact hi)
    rw [hlen] at hstep
    have hpos := resolveIndex_lt a.length i hi
    rw [markAt_set T a 0 (resolveIndex a.length i) hpos, Nat.zero_add] at hstep
    simp only [List.map_cons, delpathsLoop, hstep]
    rw [ih (resolveIndex a.length i :: T) (fun j hj => hin j (List.mem_cons_of_mem _ hj))]
    congr 2
    apply removeAt_congr
    intro n
    simp only [List.mem_append, List.mem_cons]
    tauto

/-- C17: array positions are stable across a batch of deletions.  For an array `a` whose
elements hold no hole marker and indices `i1..ik` in range, in any order and with repeats,
`funcDelpaths` with the paths `[i1],...,[ik]` returns `a` without the elements at the
resolved original positions, the rest in their order; so a permutation of the paths gives
the same result. -/
theorem delpaths_array_indices {maxLen : Nat} (a : List Value) (is : List Int)
    (ha : hasHoleList a = false)
    (hin : ∀ i ∈ is, -(a.length : Int) ≤ i ∧ i < a.length) :
    funcDelpaths maxLen (.arr a) (.arr (is.map indexPath))
      = .val (.arr (removeAt (is.map (resolveIndex a.length)) 0 a)) ∧
    (∀ js : List Int, js.Perm is →
      funcDelpaths maxLen (.arr a) (.arr (js.map indexPath))
        = funcDelpaths maxLen (.arr a) (.arr (is.map indexPath))) := by
  have main : ∀ ks : List Int, (∀ i ∈ ks, -(a.length : Int) ≤ i ∧ i < a.length) →
      funcDelpaths maxLen (.arr a) (.arr (ks.map indexPath))
        = .val (.arr (removeAt (ks.map (resolveIndex a.length)) 0 a)) := by
    intro ks hks
    have h := @delpathsLoop_marks maxLen a ha ks [] hks
    rw [markAt_nil, List.append_nil] at h
    exact h
  refine ⟨main is hin, fun js hp => ?_⟩
  rw [main is hin, main js (fun i hi => hin i (hp.mem_iff.mp hi))]
  congr 2
  apply removeAt_congr
  intro n
  exact (hp.map (resolveIndex a.length)).mem_iff

/-- C17 on the example of the specification: deleting positions `0` and `1` of `[1,2,3]`
in either order leaves `[3]`. -/
theorem delpaths_array_indices_witness :
    (hasHoleList [Value.int 1, Value.int 2, Value.int 3] = false ∧
      ∀ i ∈ [(0 : Int), 1],
        -(([Value.int 1, Value.int 2, Value.int 3].length : Nat) : Int) ≤ i ∧
        i < (([Value.int 1, Value.int 2, Value.int 3].length : Nat) : Int)) ∧
    (funcDelpaths 1000 (.arr [.int 1, .int 2, .int 3]) (.arr ([(0 : Int), 1].map indexPath))
        = .val (.arr (removeAt ([(0 : Int), 1].map
            (resolveIndex [Value.int 1, Value.int 2, Value.int 3].length)) 0
            [.int 1, .int 2, .int 3])) ∧
      (∀ js : List Int, js.Perm [(0 : Int), 1] →
        funcDelpaths 1000 (.arr [.int 1, .int 2, .int 3]) (.arr (js.map indexPath))
          = funcDelpaths 1000 (.arr [.int 1, .int 2, .int 3])
              (.arr ([(0 : Int), 1].map indexPath)))) ∧
    funcDelpaths 1000 (.arr [.int 1, .int 2, .int 3]) (.arr [.arr [.int 0], .arr [.int 1]])
      = .val (.arr [.int 3]) ∧
    funcDelpaths 1000 (.arr [.int 1, .int 2, .int 3]) (.arr [.arr [.int 1], .arr [.int 0]])
      = .val (.arr [.int 3]) :=
  ⟨⟨rfl, by decide⟩,
    delpaths_array_indices [.int 1, .int 2, .int 3] [0, 1] rfl (by decide), rfl, rfl⟩

/-! ## Theorems: last write wins -/

theorem mapSet_mapSet (m : List (String × Value)) (k : String) (w w2 : Value) :
    mapSet (mapSet m k w) k w2 = mapSet m k w2 := by
  induction m with
  | nil => simp [mapSet]
  | cons kv m ih =>
    obtain ⟨k2, w0⟩ := kv
    by_cases h : k2 = k
    · simp [mapSet, h]
    · simp [mapSet, h, ih]

theorem makeCopy_of_length (l : Nat) (ys : List Value) (h : ys.length = l) :
    makeCopy l ys = ys := by
  subst h
  exact makeCopy_self ys

/-- A second write at the same position of the array written first gives what a single
write of the second value gives. -/
theorem arrayStep_lastwrite {maxLen : Nat} (x y : Value) (uu : List Value) (l pos : Int) (last : Bool)
    (nextx nexty : Value → Result) (u1 : Value)
    (hl : 0 ≤ l) (hp0 : 0 ≤ pos) (hp : pos < l)
    (hIH : ∀ c w, nextx c = .val w → nexty w = nexty c)
    (hx : arrayStep maxLen (fun _ => x) uu l pos last nextx = .val u1) :
    ∃ ys1, u1 = .arr ys1 ∧ ys1.length = l.toNat ∧
      arrayStep maxLen (fun _ => y) ys1 l pos last nexty
        = arrayStep maxLen (fun _ => y) uu l pos last nexty := by
  have hm := (arrayStep_val_make _ uu l pos last nextx u1 hx).2
  obtain ⟨c, hc1, hc2⟩ := @arrayStep_inrange maxLen (fun _ => x) uu l pos last nextx hl hp0
    hp hm
  obtain ⟨c3, hc5, hc6⟩ := @arrayStep_inrange maxLen (fun _ => y) uu l pos last nexty hl hp0
    hp hm
  rw [hc1] at hc5
  injection hc5 with hc5
  subst hc5
  have hlen := makeCopy_length l.toNat uu
  have hlt : pos.toNat < (makeCopy l.toNat uu).length := by omega
  rw [hc2] at hx
  have fin : ∀ w : Value, (last = false → nexty w = nexty c) →
      arrayStep maxLen (fun _ => y) ((makeCopy l.toNat uu).set pos.toNat w) l pos last nexty
        = arrayStep maxLen (fun _ => y) uu l pos last nexty := by
    intro w hw
    have hlen1 : ((makeCopy l.toNat uu).set pos.toNat w).length = l.toNat := by
      rw [List.length_set, hlen]
    obtain ⟨c2, hc3, hc4⟩ := @arrayStep_inrange maxLen (fun _ => y)
      ((makeCopy l.toNat uu).set pos.toNat w) l pos last nexty hl hp0 hp
      (Or.inl (by rw [hlen1]; omega))
    rw [makeCopy_of_length _ _ hlen1] at hc3 hc4
    rw [List.getElem?_set_self hlt] at hc3
    injection hc3 with hc3
    subst hc3
    rw [hc4, hc6]
    cases last with
    | true => simp [List.set_set]
    | false => simp [List.set_set, hw rfl]
  cases last with
  | true =>
    simp only [if_true] at hx
    injection hx with hx
    subst hx
    exact ⟨_, rfl, by rw [List.length_set, hlen], fin x (fun h => by cases h)⟩
  | false =>
    cases hn : nextx c with
    | val w =>
      rw [hn] at hx
      simp only [Bool.false_eq_true, if_false] at hx
      injection hx with hx
      subst hx
      exact ⟨_, rfl, by rw [List.length_set, hlen], fin w (fun _ => hIH c w hn)⟩
    | err e => rw [hn] at hx; simp at hx
    | panic info => rw [hn] at hx; simp at hx

theorem arrayCase_lastwrite {maxLen : Nat} (x y u u1 : Value) (idx : Int) (last : Bool)
    (nextx nexty : Value → Result) (hidx : idx < 2 ^ 63)
    (hIH : ∀ c w, nextx c = .val w → nexty w = nexty c)
    (hx : arrayCase maxLen "setpath" (fun _ => x) u idx last nextx = .val u1) :
    arrayCase maxLen "setpath" (fun _ => y) u1 idx last nexty
      = arrayCase maxLen "setpath" (fun _ => y) u idx last nexty := by
  have key : ∀ uu : List Value,
      arrayCase maxLen "setpath" (fun _ => x) (.arr uu) idx last nextx = .val u1 →
      arrayCase maxLen "setpath" (fun _ => y) u1 idx last nexty
        = arrayCase maxLen "setpath" (fun _ => y) (.arr uu) idx last nexty := by
    intro uu hx
    have hl : (0 : Int) ≤ uu.length := Int.natCast_nonneg _
    by_cases hA : (uu.length : Int) ≤ idx
    · have hs : ∀ (f : Value → Value) (next : Value → Result),
          arrayCase maxLen "setpath" f (.arr uu) idx last next
            = arrayStep maxLen f uu (wrapInt (idx + 1)) idx last next := by
        intro f next; simp [arrayCase, hA]
      rw [hs] at hx ⊢
      have hw : wrapInt (idx + 1) = idx + 1 := by
        rcases wrapInt_succ idx (by omega) hidx with ⟨_, h⟩ | h
        · exact h
        · have := (arrayStep_val_make _ uu _ idx last nextx u1 hx).1
          omega
      rw [hw] at hx ⊢
      obtain ⟨ys1, h1, h2, h3⟩ := arrayStep_lastwrite x y uu (idx + 1) idx last nextx nexty u1
        (by omega) (by omega) (by omega) hIH hx
      subst h1
      have hA1 : ¬ ((ys1.length : Int) ≤ idx) := by omega
      have hB1 : ¬ (idx < -(ys1.length : Int)) := by omega
      have hC1 : ¬ (idx < 0) := by omega
      have hl1 : (ys1.length : Int) = idx + 1 := by omega
      have e1 : arrayCase maxLen "setpath" (fun _ => y) (.arr ys1) idx last nexty
          = arrayStep maxLen (fun _ => y) ys1 ys1.length idx last nexty := by
        simp [arrayCase, hA1, hB1, hC1]
      rw [e1, hl1]
      exact h3
    · by_cases hB : idx < -(uu.length : Int)
      · have hs : arrayCase maxLen "setpath" (fun _ => x) (.arr uu) idx last nextx
            = .err (.funcTypeError "setpath" (.int idx)) := by
          simp [arrayCase, hA, hB]
        rw [hs] at hx
        cases hx
      · by_cases hC : idx < 0
        · have hs : ∀ (f : Value → Value) (next : Value → Result),
              arrayCase maxLen "setpath" f (.arr uu) idx last next
                = arrayStep maxLen f uu uu.length (uu.length + idx) last next := by
            intro f next; simp [arrayCase, hA, hB, hC]
          rw [hs] at hx ⊢
          obtain ⟨ys1, h1, h2, h3⟩ := arrayStep_lastwrite x y uu uu.length (uu.length + idx)
            last nextx nexty u1 hl (by omega) (by omega) hIH hx
          subst h1
          have hl1 : ys1.length = uu.length := by simpa using h2
          have hA1 : ¬ ((ys1.length : Int) ≤ idx) := by omega
          have hB1 : ¬ (idx < -(ys1.length : Int)) := by omega
          have e1 : arrayCase maxLen "setpath" (fun _ => y) (.arr ys1) idx last nexty
              = arrayStep maxLen (fun _ => y) ys1 ys1.length (ys1.length + idx) last nexty := by
            simp [arrayCase, hA1, hB1, hC]
          rw [e1, hl1]
          exact h3
        · have hs : ∀ (f : Value → Value) (next : Value → Result),
              arrayCase maxLen "setpath" f (.arr uu) idx last next
                = arrayStep maxLen f uu uu.length idx last next := by
            intro f next; simp [arrayCase, hA, hB, hC]
          rw [hs] at hx ⊢
          obtain ⟨ys1, h1, h2, h3⟩ := arrayStep_lastwrite x y uu uu.length idx
            last nextx nexty u1 hl (by omega) (by omega) hIH hx
          subst h1
          have hl1 : ys1.length = uu.length := by simpa using h2
          have hA1 : ¬ ((ys1.length : Int) ≤ idx) := by omega
          have hB1 : ¬ (idx < -(ys1.length : Int)) := by omega
          have e1 : arrayCase maxLen "setpath" (fun _ => y) (.arr ys1) idx last nexty
              = arrayStep maxLen (fun _ => y) ys1 ys1.length idx last nexty := by
            simp [arrayCase, hA1, hB1, hC]
          rw [e1, hl1]
          exact h3
  cases u with
  | null => exact key [] hx
  | arr uu => exact key uu hx
  | _ => simp [arrayCase] at hx

theorem objectCase_lastwrite (x y u u1 : Value) (k : String) (last : Bool)
    (nextx nexty : Value → Result)
    (hIH : ∀ c w, nextx c = .val w → nexty w = nexty c)
    (hx : objectCase "setpath" (fun _ => x) u k last nextx = .val u1) :
    objectCase "setpath" (fun _ => y) u1 k last nexty
      = objectCase "setpath" (fun _ => y) u k last nexty := by
  have hs : ∀ (f : Value → Value) (next : Value → Result) (uu : List (String × Value)),
      objectStep "setpath" f uu k last next
        = if last then .val (.obj (mapSet uu k (f (mapIndex uu k))))
          else
            match next (mapIndex uu k) with
            | .val w => .val (.obj (mapSet uu k w))
            | r => r := by
    intro f next uu
    simp [objectStep, setpath_ne_delpaths]
  have key : ∀ uu : List (String × Value),
      objectStep "setpath" (fun _ => x) uu k last nextx = .val u1 →
      objectCase "setpath" (fun _ => y) u1 k last nexty
        = objectStep "setpath" (fun _ => y) uu k last nexty := by
    intro uu hx
    rw [hs] at hx
    have fin : ∀ w : Value, (last = false → nexty w = nexty (mapIndex uu k)) →
        objectCase "setpath" (fun _ => y) (.obj (mapSet uu k w)) k last nexty
          = objectStep "setpath" (fun _ => y) uu k last nexty := by
      intro w hw
      have e1 : objectCase "setpath" (fun _ => y) (.obj (mapSet uu k w)) k last nexty
          = objectStep "setpath" (fun _ => y) (mapSet uu k w) k last nexty := by
        simp [objectCase, Value.isNull]
      rw [e1, hs, hs, mapIndex_mapSet_self]
      cases last with
      | true => simp [mapSet_mapSet]
      | false => simp [mapSet_mapSet, hw rfl]
    cases last with
    | true =>
      simp only [if_true] at hx
      injection hx with hx
      subst hx
      exact fin x (fun h => by cases h)
    | false =>
      cases hn : nextx (mapIndex uu k) with
      | val w =>
        rw [hn] at hx
        simp only [Bool.false_eq_true, if_false] at hx
        injection hx with hx
        subst hx
        exact fin w (fun _ => hIH _ w hn)
      | err e => rw [hn] at hx; simp at hx
      | panic info => rw [hn] at hx; simp at hx
  cases u with
  | null =>
    have e0 : ∀ (f : Value → Value) (next : Value → Result),
        objectCase "setpath" f .null k last next = objectStep "setpath" f [] k last next := by
      intro f next
      simp [objectCase, Value.isNull, setpath_ne_delpaths]
    rw [e0] at hx ⊢
    exact key [] hx
  | obj uu =>
    have e0 : ∀ (f : Value → Value) (next : Value → Result),
        objectCase "setpath" f (.obj uu) k last next
          = objectStep "setpath" f uu k last next := by
      intro f next
      simp [objectCase, Value.isNull]
    rw [e0] at hx ⊢
    exact key uu hx
  | _ => simp [objectCase, Value.isNull] at hx

/-- Walking the same keys through the result of a first write and writing again gives what
a single walk with the second value gives. -/
theorem updateLoop_lastwrite {maxLen : Nat} (x y : Value) :
    ∀ (keys : List Value), goInts keys → ∀ (u u1 : Value),
      updateLoop maxLen "setpath" (fun _ => x) u keys = .val u1 →
      updateLoop maxLen "setpath" (fun _ => y) u1 keys
        = updateLoop maxLen "setpath" (fun _ => y) u keys := by
  intro keys
  induction keys with
  | nil =>
    intro _ u u1 h
    simp only [updateLoop] at h
    injection h with h
    subst h
    rfl
  | cons key rest ih =>
    intro hi u u1 h
    have ih2 := ih (goInts_tail key rest hi)
    cases key with
    | str k =>
      rw [updateLoop_str] at h
      rw [updateLoop_str, updateLoop_str]
      exact objectCase_lastwrite x y u u1 k _ _ _ (fun c w hc => ih2 c w hc) h
    | int n =>
      rw [updateLoop_int] at h
      rw [updateLoop_int, updateLoop_int]
      exact arrayCase_lastwrite x y u u1 n _ _ _
        (goInts_toInt _ hi _ (List.mem_cons_self _ _) n rfl) (fun c w hc => ih2 c w hc) h
    | float b =>
      rw [updateLoop_float] at h
      rw [updateLoop_float, updateLoop_float]
      exact arrayCase_lastwrite x y u u1 (f64ToInt b) _ _ _ (f64ToInt_range b).2
        (fun c w hc => ih2 c w hc) h
    | null => cases u <;> simp [updateLoop] at h
    | bool b => cases u <;> simp [updateLoop] at h
    | arr xs => cases u <;> simp [updateLoop] at h
    | obj o => cases u <;> simp [updateLoop] at h
    | hole => cases u <;> simp [updateLoop] at h

theorem sameOutcome_isErr (r1 r2 : Result) (h : sameOutcome r1 r2) : r1.isErr = r2.isErr := by
  rcases h with ⟨e, h1, h2⟩ | ⟨a, b, h1, h2⟩ | ⟨i, h1, h2⟩
  · rw [h1, h2]
  · rw [h1, h2]; rfl
  · rw [h1, h2]

theorem sameOutcome_step (r1 r2 : Result) (g1 g2 : Value → Value) (h : sameOutcome r1 r2) :
    sameOutcome
      (match r1 with
        | .val w => .val (g1 w)
        | r => r)
      (match r2 with
        | .val w => .val (g2 w)
        | r => r) := by
  rcases h with ⟨e, h1, h2⟩ | ⟨a, b, h1, h2⟩ | ⟨i, h1, h2⟩
  · subst h1; subst h2; exact Or.inl ⟨e, rfl, rfl⟩
  · subst h1; subst h2; exact Or.inr (Or.inl ⟨_, _, rfl, rfl⟩)
  · subst h1; subst h2; exact Or.inr (Or.inr ⟨i, rfl, rfl⟩)

theorem arrayStep_sameOutcome {maxLen : Nat} (f1 f2 : Value → Value) (uu : List Value)
    (l y : Int) (last : Bool) (next1 next2 : Value → Result) (hy : 0 ≤ y)
    (h : ∀ c, sameOutcome (next1 c) (next2 c)) :
    sameOutcome (arrayStep maxLen f1 uu l y last next1)
      (arrayStep maxLen f2 uu l y last next2) := by
  by_cases hm : l < 0 ∨ ((uu.length : Int) < l ∧ (maxLen : Int) < l)
  · rw [arrayStep_make_panic f1 uu l y last next1 hm,
      arrayStep_make_panic f2 uu l y last next2 hm]
    exact Or.inr (Or.inr ⟨_, rfl, rfl⟩)
  · by_cases hlt : y < l
    · obtain ⟨c, hc1, hc2⟩ := @arrayStep_inrange maxLen f1 uu l y last next1 (by omega) hy hlt
        (by omega)
      obtain ⟨c3, hc3, hc4⟩ := @arrayStep_inrange maxLen f2 uu l y last next2 (by omega) hy hlt
        (by omega)
      rw [hc1] at hc3
      injection hc3 with hc3
      subst hc3
      rw [hc2, hc4]
      cases last with
      | true => exact Or.inr (Or.inl ⟨_, _, rfl, rfl⟩)
      | false =>
        simp only [Bool.false_eq_true, if_false]
        rcases h c with ⟨e, h1, h2⟩ | ⟨a, b, h1, h2⟩ | ⟨i, h1, h2⟩
        · rw [h1, h2]; exact Or.inl ⟨e, rfl, rfl⟩
        · rw [h1, h2]; exact Or.inr (Or.inl ⟨_, _, rfl, rfl⟩)
        · rw [h1, h2]; exact Or.inr (Or.inr ⟨i, rfl, rfl⟩)
    · have h2 : ((makeCopy l.toNat uu).length : Int) ≤ y := by
        rw [makeCopy_length]; omega
      simp only [arrayStep, if_neg hm, if_pos h2]
      exact Or.inr (Or.inl ⟨_, _, rfl, rfl⟩)

theorem arrayCase_sameOutcome {maxLen : Nat} (name : String) (f1 f2 : Value → Value)
    (u : Value) (y : Int) (last : Bool) (next1 next2 : Value → Result)
    (h : ∀ c, sameOutcome (next1 c) (next2 c)) :
    sameOutcome (arrayCase maxLen name f1 u y last next1)
      (arrayCase maxLen name f2 u y last next2) := by
  have key : ∀ uu : List Value,
      sameOutcome (arrayCase maxLen name f1 (.arr uu) y last next1)
        (arrayCase maxLen name f2 (.arr uu) y last next2) := by
    intro uu
    have hl : (0 : Int) ≤ uu.length := Int.natCast_nonneg _
    simp only [arrayCase]
    split_ifs with h1 h2 h3 h4
    · exact arrayStep_sameOutcome f1 f2 uu _ y last next1 next2 (by omega) h
    · exact Or.inr (Or.inl ⟨_, _, rfl, rfl⟩)
    · exact Or.inl ⟨_, rfl, rfl⟩
    · exact arrayStep_sameOutcome f1 f2 uu uu.length (uu.length + y) last next1 next2
        (by omega) h
    · exact arrayStep_sameOutcome f1 f2 uu uu.length y last next1 next2 (by omega) h
  cases u with
  | null => exact key []
  | arr uu => exact key uu
  | _ => exact Or.inl ⟨_, rfl, rfl⟩

theorem objectCase_sameOutcome (name : String) (f1 f2 : Value → Value) (u : Value)
    (k : String) (last : Bool) (next1 next2 : Value → Result)
    (h : ∀ c, sameOutcome (next1 c) (next2 c)) :
    sameOutcome (objectCase name f1 u k last next1) (objectCase name f2 u k last next2) := by
  have key : ∀ uu : List (String × Value),
      sameOutcome (objectStep name f1 uu k last next1) (objectStep name f2 uu k last next2) := by
    intro uu
    simp only [objectStep]
    split_ifs with h1 h2
    · exact Or.inr (Or.inl ⟨_, _, rfl, rfl⟩)
    · exact Or.inr (Or.inl ⟨_, _, rfl, rfl⟩)
    · rcases h (mapIndex uu k) with ⟨e, h3, h4⟩ | ⟨a, b, h3, h4⟩ | ⟨i, h3, h4⟩
      · rw [h3, h4]; exact Or.inl ⟨e, rfl, rfl⟩
      · rw [h3, h4]; exact Or.inr (Or.inl ⟨_, _, rfl, rfl⟩)
      · rw [h3, h4]; exact Or.inr (Or.inr ⟨i, rfl, rfl⟩)
  simp only [objectCase]
  split_ifs with h0
  · exact Or.inr (Or.inl ⟨_, _, rfl, rfl⟩)
  · cases u with
    | null => exact key []
    | obj uu => exact key uu
    | _ => exact Or.inl ⟨_, rfl, rfl⟩

/-- Whether the walk of `updatePaths` fails, and with which error or panic, does not depend
on the transform. -/
theorem updateLoop_sameOutcome {maxLen : Nat} (name : String) (f1 f2 : Value → Value) :
    ∀ (keys : List Value) (u : Value),
      sameOutcome (updateLoop maxLen name f1 u keys) (updateLoop maxLen name f2 u keys) := by
  intro keys
  induction keys with
  | nil => intro u; exact Or.inr (Or.inl ⟨_, _, rfl, rfl⟩)
  | cons key rest ih =>
    intro u
    cases key with
    | str k => exact objectCase_sameOutcome name f1 f2 u k _ _ _ (fun c => ih c)
    | int n => exact arrayCase_sameOutcome name f1 f2 u n _ _ _ (fun c => ih c)
    | float b => exact arrayCase_sameOutcome name f1 f2 u (f64ToInt b) _ _ _ (fun c => ih c)
    | null => cases u <;> exact Or.inl ⟨_, rfl, rfl⟩
    | bool b => cases u <;> exact Or.inl ⟨_, rfl, rfl⟩
    | arr xs => cases u <;> exact Or.inl ⟨_, rfl, rfl⟩
    | obj o => cases u <;> exact Or.inl ⟨_, rfl, rfl⟩
    | hole => cases u <;> exact Or.inl ⟨_, rfl, rfl⟩

theorem funcSetpath_sameOutcome {maxLen : Nat} (r p x y : Value) :
    sameOutcome (funcSetpath maxLen r p x) (funcSetpath maxLen r p y) := by
  cases p with
  | arr keys =>
    simp only [funcSetpath, updatePaths]
    split_ifs
    · exact Or.inr (Or.inl ⟨_, _, rfl, rfl⟩)
    · exact updateLoop_sameOutcome "setpath" _ _ keys _
  | _ => exact Or.inl ⟨_, rfl, rfl⟩

/-- A second `setpath` through the same path of the value a first one returned gives what
a single `setpath` of the second value gives. -/
theorem funcSetpath_lastwrite {maxLen : Nat} (r x y r1 : Value) (keys : List Value)
    (hi : goInts keys) (h : funcSetpath maxLen r (.arr keys) x = .val r1) :
    funcSetpath maxLen r1 (.arr keys) y = funcSetpath maxLen r (.arr keys) y := by
  cases keys with
  | nil =>
    have hs : ∀ (v w : Value), funcSetpath maxLen v (.arr []) w = .val w := fun _ _ => rfl
    rw [hs, hs]
  | cons key rest =>
    have hs : ∀ (v w : Value), funcSetpath maxLen v (.arr (key :: rest)) w
        = updateLoop maxLen "setpath" (fun _ => w) v (key :: rest) := fun _ _ => rfl
    rw [hs] at h
    rw [hs, hs]
    exact updateLoop_lastwrite x y (key :: rest) hi r r1 h

/-- C19, as stated, fails: writing `7` at the index 9223372036854775807 (the largest `int`)
of `[0]` is not an error, yet it is no value through which a second write could go: the
length `y + 1` wraps around and `make` panics.  Here the limit of `make` is the largest
`int` itself. -/
theorem setpath_last_write_wins_fails :
    (funcSetpath 9223372036854775807 (.arr [.int 0]) (.arr [.int 9223372036854775807])
      (.int 7)).isErr = false ∧
    funcSetpath 9223372036854775807 (.arr [.int 0]) (.arr [.int 9223372036854775807]) (.int 7)
      = .panic "makeslice: len out of range" ∧
    ¬ ∃ r1, funcSetpath 9223372036854775807 (.arr [.int 0])
        (.arr [.int 9223372036854775807]) (.int 7) = .val r1 ∧
      funcSetpath 9223372036854775807 r1 (.arr [.int 9223372036854775807]) (.int 8)
        = funcSetpath 9223372036854775807 (.arr [.int 0]) (.arr [.int 9223372036854775807])
            (.int 8) := by
  have h : funcSetpath 9223372036854775807 (.arr [.int 0])
      (.arr [.int 9223372036854775807]) (.int 7) = .panic "makeslice: len out of range" := rfl
  refine ⟨rfl, h, ?_⟩
  rintro ⟨r1, h1, _⟩
  rw [h] at h1
  cases h1

/-- C19, amended: last write wins.  For a path whose `int` components are Go `int`s:
whenever `funcSetpath r p x` returns a value `r1`, writing `y` (or `x` again) through the
same path of `r1` gives what writing it into `r` gives; when growing an array up to each
numeric component stays within the limits (`y + 1` is an `int` that `make` accepts) and
`funcSetpath r p x` is not an error, it does return such a value; and whether `funcSetpath`
returns an error does not depend on the value written. -/
theorem setpath_last_write_wins {maxLen : Nat} (r p x y : Value)
    (hi : ∀ keys, p = .arr keys → goInts keys) :
    (∀ r1, funcSetpath maxLen r p x = .val r1 →
      funcSetpath maxLen r1 p y = funcSetpath maxLen r p y ∧
      funcSetpath maxLen r1 p x = funcSetpath maxLen r p x) ∧
    ((∀ keys, p = .arr keys → pathFits maxLen keys) →
      (funcSetpath maxLen r p x).isErr = false →
      ∃ r1, funcSetpath maxLen r p x = .val r1 ∧
        funcSetpath maxLen r1 p y = funcSetpath maxLen r p y ∧
        funcSetpath maxLen r1 p x = funcSetpath maxLen r p x) ∧
    (∀ r2 p2 x2 y2 : Value,
      (funcSetpath maxLen r2 p2 x2).isErr = (funcSetpath maxLen r2 p2 y2).isErr) := by
  have part1 : ∀ r1, funcSetpath maxLen r p x = .val r1 →
      funcSetpath maxLen r1 p y = funcSetpath maxLen r p y ∧
      funcSetpath maxLen r1 p x = funcSetpath maxLen r p x := by
    intro r1 h
    cases p with
    | arr keys =>
      exact ⟨funcSetpath_lastwrite r x y r1 keys (hi keys rfl) h,
        funcSetpath_lastwrite r x x r1 keys (hi keys rfl) h⟩
    | _ => cases h
  refine ⟨part1, ?_,
    fun r2 p2 x2 y2 => sameOutcome_isErr _ _ (funcSetpath_sameOutcome r2 p2 x2 y2)⟩
  intro hfit hne
  cases hr : funcSetpath maxLen r p x with
  | val r1 => exact ⟨r1, rfl, (part1 r1 hr).1, (part1 r1 hr).2.trans hr⟩
  | err e => rw [hr] at hne; simp [Result.isErr] at hne
  | panic info =>
    obtain ⟨_, _, keys, hk, hnf⟩ := updatePaths_panic_cases "setpath" (clone r) p
      (fun _ => x) info hr
    exact absurd (hfit keys hk) hnf

/-- C19 at a concrete input: two writes through `["a", 1]` into `{"a": [0]}`, with 1000 as
the limit of `make`. -/
theorem setpath_last_write_wins_witness :
    (∀ keys, Value.arr [.str "a", .int 1] = .arr keys → goInts keys) ∧
    (∀ keys, Value.arr [.str "a", .int 1] = .arr keys → pathFits 1000 keys) ∧
    (funcSetpath 1000 (.obj [("a", .arr [.int 0])]) (.arr [.str "a", .int 1]) (.int 7)).isErr
      = false ∧
    ∃ r1, funcSetpath 1000 (.obj [("a", .arr [.int 0])]) (.arr [.str "a", .int 1]) (.int 7)
        = .val r1 ∧
      funcSetpath 1000 r1 (.arr [.str "a", .int 1]) (.int 8)
        = funcSetpath 1000 (.obj [("a", .arr [.int 0])]) (.arr [.str "a", .int 1]) (.int 8) ∧
      funcSetpath 1000 r1 (.arr [.str "a", .int 1]) (.int 7)
        = funcSetpath 1000 (.obj [("a", .arr [.int 0])]) (.arr [.str "a", .int 1]) (.int 7) :=
  have hi : ∀ keys, Value.arr [.str "a", .int 1] = .arr keys → goInts keys := by
    intro keys hk n hn
    injection hk with hk
    subst hk
    simp at hn
    subst hn
    decide
  have hf : ∀ keys, Value.arr [.str "a", .int 1] = .arr keys → pathFits 1000 keys := by
    intro keys hk k hm y hy
    injection hk with hk
    subst hk
    simp only [List.mem_cons, List.mem_singleton, List.mem_nil_iff, or_false] at hm
    rcases hm with h | h <;> subst h <;> simp only [toInt, Option.some.injEq] at hy
    · cases hy
    · subst hy; exact ⟨by decide, by decide⟩
  ⟨hi, hf, rfl,
    (@setpath_last_write_wins 1000 (.obj [("a", .arr [.int 0])]) (.arr [.str "a", .int 1])
      (.int 7) (.int 8) hi).2.1 hf rfl⟩

/-! ## Theorems: a write touches one slot -/

theorem heapRead_alloc_new (h : Heap) (xs : List Value) :
    heapRead (heapAlloc h xs).1 (heapAlloc h xs).2 = xs := by
  simp [heapRead, heapAlloc]

theorem heapRead_alloc_old (h : Heap) (xs : List Value) (addr : Nat)
    (ha : addr < List.length h) :
    heapRead (heapAlloc h xs).1 addr = heapRead h addr := by
  simp [heapRead, heapAlloc, List.getElem?_append_left ha]

theorem heapAlloc_length (h : Heap) (xs : List Value) :
    List.length (heapAlloc h xs).1 = List.length h + 1 := by
  simp [heapAlloc]

theorem heapRead_write_same (h : Heap) (addr i : Nat) (w : Value)
    (ha : addr < List.length h) :
    heapRead (heapWrite h addr i w) addr = (heapRead h addr).set i w := by
  simp only [heapRead, heapWrite, List.get?_eq_getElem?]
  rw [List.getElem?_set_self ha]
  rfl

theorem heapRead_write_other (h : Heap) (addr addr2 i : Nat) (w : Value)
    (hne : addr ≠ addr2) :
    heapRead (heapWrite h addr i w) addr2 = heapRead h addr2 := by
  simp only [heapRead, heapWrite, List.get?_eq_getElem?]
  rw [List.getElem?_set_ne hne]

/-- On the heap the array step computes what `arrayStep` computes for the last key, and
writes only to the backing array it allocates. -/
theorem armWrite_spec {maxLen : Nat} (f : Value → Value) (h : Heap) (cur : List Value)
    (l y : Int) (next : Value → Result) :
    (armWrite maxLen f h cur l y).2 = arrayStep maxLen f cur l y true next ∧
    ∀ addr, addr < List.length h →
      heapRead (armWrite maxLen f h cur l y).1 addr = heapRead h addr := by
  unfold armWrite arrayStep
  by_cases hl : l < 0 ∨ ((cur.length : Int) < l ∧ (maxLen : Int) < l)
  · simp only [if_pos hl]
    exact ⟨by trivial, fun _ _ => by trivial⟩
  · simp only [if_neg hl, heapRead_alloc_new]
    by_cases hy : ((makeCopy l.toNat cur).length : Int) ≤ y
    · simp only [if_pos hy]
      exact ⟨by trivial, fun addr ha => heapRead_alloc_old h _ addr ha⟩
    · simp only [if_neg hy]
      cases hg : goIndex (makeCopy l.toNat cur) y with
      | none => exact ⟨by trivial, fun addr ha => heapRead_alloc_old h _ addr ha⟩
      | some c =>
        have hnew : (heapAlloc h (makeCopy l.toNat cur)).2
            < List.length (heapAlloc h (makeCopy l.toNat cur)).1 := by
          simp [heapAlloc]
        refine ⟨?_, fun addr ha => ?_⟩
        · simp only [if_true]
          rw [heapRead_write_same _ _ _ _ hnew, heapRead_alloc_new]
        · have hne : (heapAlloc h (makeCopy l.toNat cur)).2 ≠ addr := by
            simp only [heapAlloc]
            omega
          simp only []
          rw [heapRead_write_other _ _ _ _ _ hne]
          exact heapRead_alloc_old h _ addr ha

theorem arrayArmHeap_spec {maxLen : Nat} (name : String) (f : Value → Value) (h : Heap)
    (uu : Nat) (y : Int) (next : Value → Result) :
    (arrayArmHeap maxLen name f h uu y).2
      = arrayCase maxLen name f (.arr (heapRead h uu)) y true next ∧
    ∀ addr, addr < List.length h →
      heapRead (arrayArmHeap maxLen name f h uu y).1 addr = heapRead h addr := by
  unfold arrayArmHeap arrayCase
  simp only []
  split_ifs with h1 h2 h3 h4
  · exact armWrite_spec f h _ _ _ next
  · exact ⟨rfl, fun _ _ => rfl⟩
  · exact ⟨rfl, fun _ _ => rfl⟩
  · exact armWrite_spec f h _ _ _ next
  · exact armWrite_spec f h _ _ _ next

/-- On the heap `funcSetpath(a, [i], w)` returns what the function on values returns and
leaves every backing array that existed before the call, the one of `a` among them, as it
was. -/
theorem funcSetpathIndexHeap_spec {maxLen : Nat} (h : Heap) (a : Nat) (i : Int) (w : Value) :
    (funcSetpathIndexHeap maxLen h a i w).2
      = funcSetpath maxLen (.arr (heapRead h a)) (indexPath i) w ∧
    ∀ addr, addr < List.length h →
      heapRead (funcSetpathIndexHeap maxLen h a i w).1 addr = heapRead h addr := by
  have hs : funcSetpath maxLen (.arr (heapRead h a)) (indexPath i) w
      = arrayCase maxLen "setpath" (fun _ => w) (.arr (heapRead h a)) i true
          (fun c => updateLoop maxLen "setpath" (fun _ => w) c []) := rfl
  obtain ⟨h1, h2⟩ := @arrayArmHeap_spec maxLen "setpath" (fun _ => w) (cloneHeap h a).1
    (cloneHeap h a).2 i (fun c => updateLoop maxLen "setpath" (fun _ => w) c [])
  have hc : heapRead (cloneHeap h a).1 (cloneHeap h a).2 = heapRead h a :=
    heapRead_alloc_new h _
  refine ⟨?_, fun addr ha => ?_⟩
  · rw [hs, ← hc]
    exact h1
  · have hlen : addr < List.length (cloneHeap h a).1 := by
      unfold cloneHeap
      rw [heapAlloc_length]
      omega
    have := h2 addr hlen
    unfold funcSetpathIndexHeap
    simp only []
    rw [this]
    exact heapRead_alloc_old h _ addr ha

theorem makeCopy_getElem? (n : Nat) (a : List Value) (j : Nat) (hn : a.length ≤ n) :
    (makeCopy n a)[j]? =
      if j < a.length then a[j]? else if j < n then some Value.null else none := by
  unfold makeCopy
  rw [List.take_of_length_le hn]
  by_cases hj : j < a.length
  · rw [if_pos hj, List.getElem?_append_left hj]
  · rw [if_neg hj, List.getElem?_append_right (by omega), List.getElem?_replicate]
    by_cases hj2 : j < n
    · rw [if_pos hj2, if_pos (by omega)]
    · rw [if_neg hj2, if_neg (by omega)]

/-- Writing at index `i ≥ -l` of an array of length `l`, where an index past the end stays
within the limits of growth: the array is copied into one of length `max l (i+1)` and the
resolved position is overwritten. -/
theorem funcSetpath_index_eq {maxLen : Nat} (a : List Value) (i : Int) (x : Value)
    (hi : -(a.length : Int) ≤ i) (hfit : (a.length : Int) ≤ i → fitsGrowth maxLen i) :
    funcSetpath maxLen (.arr a) (indexPath i) x
      = .val (.arr ((makeCopy (max a.length (i + 1).toNat) a).set
          (resolveIndex a.length i) x)) := by
  have hl : (0 : Int) ≤ a.length := Int.natCast_nonneg _
  have hs : funcSetpath maxLen (.arr a) (indexPath i) x
      = arrayCase maxLen "setpath" (fun _ => x) (.arr a) i true
          (fun c => updateLoop maxLen "setpath" (fun _ => x) c []) := rfl
  rw [hs]
  have hB : ¬ (i < -(a.length : Int)) := by omega
  by_cases hA : (a.length : Int) ≤ i
  · have hf := hfit hA
    have hw : wrapInt (i + 1) = i + 1 := wrapInt_succ_eq i (by omega) hf.1
    obtain ⟨c, _, hc⟩ := @arrayStep_inrange maxLen (fun _ => x) a (i + 1) i true
      (fun c => updateLoop maxLen "setpath" (fun _ => x) c []) (by omega) (by omega) (by omega)
      (Or.inr hf.2)
    have hm : max a.length (i + 1).toNat = (i + 1).toNat := by omega
    have hr : resolveIndex a.length i = i.toNat := by
      unfold resolveIndex; rw [if_neg (by omega)]
    simp only [arrayCase, hA, true_and, if_true, hw, hc, hm, hr]
  · have hm : max a.length (i + 1).toNat = a.length := by omega
    by_cases hC : i < 0
    · obtain ⟨c, _, hc⟩ := @arrayStep_inrange maxLen (fun _ => x) a a.length (a.length + i)
        true (fun c => updateLoop maxLen "setpath" (fun _ => x) c []) hl (by omega) (by omega)
        (Or.inl (le_refl _))
      have hr : resolveIndex a.length i = ((a.length : Int) + i).toNat := by
        unfold resolveIndex; rw [if_pos hC]
      simp only [arrayCase, hA, false_and, if_false, if_neg hB, if_pos hC, hc, if_true, hm, hr,
        Int.toNat_ofNat]
    · obtain ⟨c, _, hc⟩ := @arrayStep_inrange maxLen (fun _ => x) a a.length i true
        (fun c => updateLoop maxLen "setpath" (fun _ => x) c []) hl (by omega) (by omega)
        (Or.inl (le_refl _))
      have hr : resolveIndex a.length i = i.toNat := by
        unfold resolveIndex; rw [if_neg hC]
      simp only [arrayCase, hA, false_and, if_false, if_neg hB, if_neg hC, hc, if_true, hm, hr,
        Int.toNat_ofNat]

/-- C12, as stated, fails: for `a = [1, 2, 3]` and the index 9223372036854775807 (the
largest `int`) `funcSetpath` returns no array of length `max l (i+1)`: the length `i + 1`
wraps around and `make` panics.  Here the limit of `make` is the largest `int` itself. -/
theorem setpath_writes_one_slot_fails :
    -(([Value.int 1, Value.int 2, Value.int 3].length : Nat) : Int) ≤ 9223372036854775807 ∧
    funcSetpath 9223372036854775807 (.arr [.int 1, .int 2, .int 3])
        (indexPath 9223372036854775807) (.int 9)
      = .panic "makeslice: len out of range" ∧
    ¬ ∃ b, funcSetpath 9223372036854775807 (.arr [.int 1, .int 2, .int 3])
        (indexPath 9223372036854775807) (.int 9) = .val (.arr b) ∧
      (b.length : Int)
        = max (([Value.int 1, Value.int 2, Value.int 3].length : Nat) : Int)
            (9223372036854775807 + 1) := by
  have h : funcSetpath 9223372036854775807 (.arr [.int 1, .int 2, .int 3])
      (indexPath 9223372036854775807) (.int 9) = .panic "makeslice: len out of range" := rfl
  refine ⟨by decide, h, ?_⟩
  rintro ⟨b, h1, _⟩
  rw [h] at h1
  cases h1

/-- C12, amended: `funcSetpath` writes only the addressed slot.  For an array `a` of length
`l`, an index `i ≥ -l` that is below `l` or stays within the limits of growth (`i + 1` is
an `int` that `make` accepts) and a value `x`, the result is an array of length
`max l (i+1)` with `x` at the resolved position, the elements of `a` at every other
position below `l`, and `null` at the positions from `l` up to `i`.  On a heap of backing
arrays the call returns the same result, for every index, and leaves the backing array of
`a`, like every other one that existed before the call, unchanged. -/
theorem setpath_writes_one_slot {maxLen : Nat} (a : List Value) (i : Int) (x : Value)
    (h : Heap) (addr : Nat) (hi : -(a.length : Int) ≤ i)
    (hfit : (a.length : Int) ≤ i → fitsGrowth maxLen i) :
    (∃ b, funcSetpath maxLen (.arr a) (indexPath i) x = .val (.arr b) ∧
      (b.length : Int) = max (a.length : Int) (i + 1) ∧
      b[resolveIndex a.length i]? = some x ∧
      (∀ j, j < a.length → j ≠ resolveIndex a.length i → b[j]? = a[j]?) ∧
      (∀ j : Nat, a.length ≤ j → (j : Int) < i → b[j]? = some Value.null)) ∧
    ((funcSetpathIndexHeap maxLen h addr i x).2
        = funcSetpath maxLen (.arr (heapRead h addr)) (indexPath i) x ∧
      ∀ addr2, addr2 < List.length h →
        heapRead (funcSetpathIndexHeap maxLen h addr i x).1 addr2 = heapRead h addr2) := by
  refine ⟨?_, funcSetpathIndexHeap_spec h addr i x⟩
  have hn : a.length ≤ max a.length (i + 1).toNat := Nat.le_max_left _ _
  have hlen := makeCopy_length (max a.length (i + 1).toNat) a
  have hpos : resolveIndex a.length i < max a.length (i + 1).toNat := by
    unfold resolveIndex
    split_ifs <;> omega
  refine ⟨_, funcSetpath_index_eq a i x hi hfit, ?_, ?_, ?_, ?_⟩
  · rw [List.length_set, hlen]
    omega
  · exact List.getElem?_set_self (by rw [hlen]; exact hpos)
  · intro j hj hne
    rw [List.getElem?_set_ne (Ne.symm hne), makeCopy_getElem? _ _ _ hn, if_pos hj]
  · intro j hj1 hj2
    have hne : resolveIndex a.length i ≠ j := by
      unfold resolveIndex
      split_ifs <;> omega
    rw [List.getElem?_set_ne hne, makeCopy_getElem? _ _ _ hn, if_neg (by omega),
      if_pos (by omega)]

/-- C12 at concrete inputs, with 1000 as the limit of `make`: for `a = [1,2,3]` the write
at index 4 grows the array to `[1,2,3,null,9]`; and on the example of the specification
`setpath(a, [0], 9)` is `[9,2,3]`, and on the heap `a` still holds `[1,2,3]` after the
call. -/
theorem setpath_writes_one_slot_witness :
    -(([Value.int 1, Value.int 2, Value.int 3].length : Nat) : Int) ≤ 4 ∧
    ((([Value.int 1, Value.int 2, Value.int 3].length : Nat) : Int) ≤ 4 → fitsGrowth 1000 4) ∧
    ((∃ b, funcSetpath 1000 (.arr [.int 1, .int 2, .int 3]) (indexPath 4) (.int 9)
        = .val (.arr b) ∧
      (b.length : Int) = max (([Value.int 1, Value.int 2, Value.int 3].length : Nat) : Int) (4 + 1) ∧
      b[resolveIndex [Value.int 1, Value.int 2, Value.int 3].length 4]? = some (.int 9) ∧
      (∀ j, j < [Value.int 1, Value.int 2, Value.int 3].length →
        j ≠ resolveIndex [Value.int 1, Value.int 2, Value.int 3].length 4 →
        b[j]? = [Value.int 1, Value.int 2, Value.int 3][j]?) ∧
      (∀ j : Nat, [Value.int 1, Value.int 2, Value.int 3].length ≤ j → (j : Int) < 4 →
        b[j]? = some Value.null)) ∧
    ((funcSetpathIndexHeap 1000 [[.int 1, .int 2, .int 3]] 0 4 (.int 9)).2
        = funcSetpath 1000 (.arr (heapRead [[.int 1, .int 2, .int 3]] 0)) (indexPath 4) (.int 9) ∧
      ∀ addr2, addr2 < List.length ([[.int 1, .int 2, .int 3]] : Heap) →
        heapRead (funcSetpathIndexHeap 1000 [[.int 1, .int 2, .int 3]] 0 4 (.int 9)).1 addr2
          = heapRead [[.int 1, .int 2, .int 3]] addr2)) ∧
    funcSetpath 1000 (.arr [.int 1, .int 2, .int 3]) (.arr [.int 4]) (.int 9)
      = .val (.arr [.int 1, .int 2, .int 3, .null, .int 9]) ∧
    funcSetpath 1000 (.arr [.int 1, .int 2, .int 3]) (.arr [.int 0]) (.int 9)
      = .val (.arr [.int 9, .int 2, .int 3]) ∧
    (funcSetpathIndexHeap 1000 [[.int 1, .int 2, .int 3]] 0 0 (.int 9)).2
      = .val (.arr [.int 9, .int 2, .int 3]) ∧
    heapRead (funcSetpathIndexHeap 1000 [[.int 1, .int 2, .int 3]] 0 0 (.int 9)).1 0
      = [.int 1, .int 2, .int 3] :=
  ⟨by decide, fun _ => ⟨by decide, by decide⟩,
    setpath_writes_one_slot [.int 1, .int 2, .int 3] 4 (.int 9) [[.int 1, .int 2, .int 3]] 0
      (by decide) (fun _ => ⟨by decide, by decide⟩),
    rfl, rfl, rfl, rfl⟩

end Gojq
